import Mathlib

/-!
Verification of the solve2048 rules engine, search engine and memoization
cache.  The definitions below are a shallow embedding of the Python sources
(`rules.py`, `search.py`, `cache.py`): boards are total maps from positions
to optional tile values, the stateful in-place loops of the Python code are
rendered as folds threading the board, machine floats are rendered as exact
rationals, and functions that raise are rendered as `Option`.
-/

namespace Solve2048

/-- Direction in which to move all the tiles on the board
(`rules.Direction`, declaration order `UP, RIGHT, DOWN, LEFT`). -/
inductive Direction
  | UP
  | RIGHT
  | DOWN
  | LEFT
deriving DecidableEq, Repr

/-- A board position `(row, column)` (`rules.Position`). -/
abbrev Pos := ℕ × ℕ

/-- The board: Python keeps a dict with the rectangle as key set; we embed it
as a total function, `none` meaning an empty tile (or a key outside the
rectangle, which the code never reads). -/
abbrev Board := Pos → Option ℕ

/-- `state[p] = v` on the Python dict. -/
def updateB (b : Board) (p : Pos) (v : Option ℕ) : Board :=
  fun q => if q = p then v else b q

/-- The rectangle `[(i, j) for i in range(h) for j in range(w)]`, the key
order of every board dict the program builds. -/
def rectList (size : Pos) : List Pos :=
  ((List.range size.1).map (fun i => (List.range size.2).map (fun j => (i, j)))).flatten

/-- `Game2048._rotate_board`: positions to be iterated row by row as if the
board was rotated so that `d` points upwards. -/
def rotateBoard (size : Pos) (d : Direction) : List (List Pos) :=
  let r1 := (List.range size.1).map (fun x => ((x : ℕ), (0 : ℕ)))
  let r2 := (List.range size.2).map (fun x => ((0 : ℕ), (x : ℕ)))
  let pr := if d = Direction.UP ∨ d = Direction.DOWN then (r2, r1) else (r1, r2)
  let r2 := if d = Direction.RIGHT ∨ d = Direction.DOWN then pr.2.reverse else pr.2
  pr.1.map (fun q1 => r2.map (fun q2 => (q1.1 + q2.1, q1.2 + q2.2)))

/-- `Game2048._board_as_snake`: boustrophedon traversal of the board. -/
def boardAsSnake (size : Pos) (d : Direction) : List Pos :=
  let r1 := (List.range size.1).map (fun x => ((x : ℕ), (0 : ℕ)))
  let r2 := (List.range size.2).map (fun x => ((0 : ℕ), (x : ℕ)))
  let pr := if d = Direction.UP ∨ d = Direction.DOWN then (r2, r1) else (r1, r2)
  let r2 := if d = Direction.LEFT ∨ d = Direction.UP then pr.2.reverse else pr.2
  (pr.1.foldl
    (fun acc q1 =>
      (acc.1 ++ acc.2.map (fun q2 => (q1.1 + q2.1, q1.2 + q2.2)), acc.2.reverse))
    (([] : List Pos), r2)).1

/-- A `Game2048` value: board, player to move (`+1` the maximizing actor,
`-1` the chance/min role), board size `(height, width)` and the score at
which the game ends. -/
@[ext] structure GState where
  board : Board
  player : ℤ
  size : Pos
  terminalScore : ℕ

/-- An action dict: `{player: -1, position: p}` or `{player: +1, direction: d}`
(`rules.Game2048.all_actions`). -/
inductive Action
  | insert (p : Pos)
  | slide (d : Direction)
deriving DecidableEq, Repr

/-- `Game2048.all_actions`: every insertion (row-major) followed by the four
slide directions in declaration order. -/
def allActions (s : GState) : List Action :=
  (rectList s.size).map Action.insert ++
    [Direction.UP, Direction.RIGHT, Direction.DOWN, Direction.LEFT].map Action.slide

/-- One iteration of the `_can_invoke_max` scan: the state keeps the
previous cell (`none` at the very start stands for Python's `Ellipsis`) and
the last non-empty value; trigger on an empty predecessor or a mergeable
pair.  The first component freezes once the Python loop would have
returned `True`. -/
def canSlideStep (b : Board) (st : Bool × Option (Option ℕ) × Option ℕ) (pos : Pos) :
    Bool × Option (Option ℕ) × Option ℕ :=
  match st, b pos with
  | (true, prev, prevNE), _ => (true, prev, prevNE)
  | (false, prev, prevNE), some c =>
      if prev = some (none : Option ℕ) then (true, prev, prevNE)
      else if prevNE = some c then (true, prev, prevNE)
      else (false, some (some c), some c)
  | (false, _, prevNE), none => (false, some (none : Option ℕ), prevNE)

/-- One row of `Game2048._can_invoke_max`. -/
def rowCanSlide (b : Board) (row : List Pos) : Bool :=
  (row.foldl (canSlideStep b)
    (false, (none : Option (Option ℕ)), (none : Option ℕ))).1

/-- `Game2048.can_invoke` (dispatching on the player like the Python code;
the action carries its own player tag through its constructor). -/
def canInvoke (s : GState) (a : Action) : Bool :=
  if s.player = -1 then
    match a with
    | .insert p => s.board p = none
    | .slide _ => false
  else
    match a with
    | .insert _ => false
    | .slide d => (rotateBoard s.size d).any (fun row => rowCanSlide s.board row)

/-- `Game.actions`: `all_actions` filtered by `can_invoke`, order preserved. -/
def actionsS (s : GState) : List Action :=
  (allActions s).filter (canInvoke s)

/-- One iteration of the `_eliminate_empty_tiles` inner loop: the state is
the board plus the queue of visited empty (or vacated) positions. -/
def elimStep (st : Board × List Pos) (pos : Pos) : Board × List Pos :=
  match st.1 pos with
  | none => (st.1, st.2 ++ [pos])
  | some c =>
    match st.2 with
    | [] => (st.1, [])
    | e :: rest => (updateB (updateB st.1 e (some c)) pos none, rest ++ [pos])

/-- One row of `Game2048._eliminate_empty_tiles`: move tiles toward the row
start, threading the queue of vacated positions. -/
def eliminateRow (b : Board) (row : List Pos) : Board :=
  (row.foldl elimStep (b, ([] : List Pos))).1

/-- `Game2048._eliminate_empty_tiles` over all rows. -/
def eliminateEmptyTiles (b : Board) (rows : List (List Pos)) : Board :=
  rows.foldl eliminateRow b

/-- One iteration of the `_squash_equal_tiles` inner loop: the state is the
board, the value of the last visited tile and its position. -/
def squashStep (st : Board × Option ℕ × Option Pos) (pos : Pos) :
    Board × Option ℕ × Option Pos :=
  match st.1 pos, st.2.1, st.2.2 with
  | some cv, some pv, some pp =>
      if cv = pv then
        (updateB (updateB st.1 pp (some (pv * 2))) pos none,
          (none : Option ℕ), some pos)
      else (st.1, some cv, some pos)
  | c, _, _ => (st.1, c, some pos)

/-- One row of `Game2048._squash_equal_tiles`: a pair of equal adjacent
tiles is replaced by the doubled value at the earlier position. -/
def squashRow (b : Board) (row : List Pos) : Board :=
  (row.foldl squashStep (b, (none : Option ℕ), (none : Option Pos))).1

/-- `Game2048._squash_equal_tiles` over all rows. -/
def squashEqualTiles (b : Board) (rows : List (List Pos)) : Board :=
  rows.foldl squashRow b

/-- `Game2048._invoke_max` body: eliminate, squash, eliminate along `d`. -/
def slideBoard (b : Board) (size : Pos) (d : Direction) : Board :=
  let rows := rotateBoard size d
  eliminateEmptyTiles (squashEqualTiles (eliminateEmptyTiles b rows) rows) rows

/-- The state transition of `invoke` without the legality check (the bodies
of `_invoke_min` / `_invoke_max` after their `can_invoke` guard, plus the
player flip done by `invoke`). -/
def applyAction (s : GState) : Action → GState
  | .insert p => ⟨updateB s.board p (some 2), -s.player, s.size, s.terminalScore⟩
  | .slide d => ⟨slideBoard s.board s.size d, -s.player, s.size, s.terminalScore⟩

/-- `Game2048.invoke`: `none` models the `ValueError` (the spec's
*InvalidAction*) raised when `can_invoke` is false. -/
def invoke (s : GState) (a : Action) : Option GState :=
  if canInvoke s a then some (applyAction s a) else none

/-- `Game2048.score`: the maximum tile value (0 floor), folding over the
board values in dict order. -/
def scoreS (s : GState) : ℕ :=
  ((rectList s.size).filterMap (fun p => s.board p)).foldl max 0

/-- `Game2048.terminal_test`. -/
def terminalTest (s : GState) : Bool :=
  decide (s.terminalScore ≤ scoreS s) || decide (actionsS s = [])

/-- Floor base-2 logarithm by halving, with an explicit structural fuel so
that the kernel can evaluate it (`log2Aux_eq_log` below shows it computes
`Nat.log 2`).  Models Python's `int(math.log(x, 2))`. -/
def log2Aux : ℕ → ℕ → ℕ
  | 0, _ => 0
  | fuel + 1, n => if 2 ≤ n then log2Aux fuel (n / 2) + 1 else 0

/-- Floor base-2 logarithm (`int(math.log(x, 2))`). -/
def log2 (n : ℕ) : ℕ :=
  log2Aux n n

/-- `Game2048.max_utility`: `10 ** (log2(terminal_score) + 10)`; the base-2
logarithm is exact for the power-of-two terminal scores the game uses. -/
def maxUtility (s : GState) : ℚ :=
  10 ^ (log2 s.terminalScore + 10)

/-- `Game2048.min_utility`. -/
def minUtility (s : GState) : ℚ :=
  - maxUtility s

/-- `Game2048._utility` on the list of base-2 exponents: a signed, weighted
sum over adjacent pairs.  `maxlen` is the full length of the array. -/
def utilityAux (maxlen : ℕ) : ℕ → List ℕ → ℚ
  | _, [] => 0
  | _, [_] => 0
  | i, a :: b :: t =>
      (let sg : ℚ := if b ≤ a then 1 else -1
       let w : ℚ := (maxlen : ℚ) - (i : ℚ)
       let dd : ℚ := (maxlen : ℚ) - abs (1 - max (1 / 2) (abs ((a : ℚ) - (b : ℚ))))
       sg * w * dd * ((a : ℚ) + 1) * ((b : ℚ) + 1)) + utilityAux maxlen (i + 1) (b :: t)

/-- `int(math.log(self.state[p] or 1, 2))` along a traversal. -/
def powersOf (b : Board) (trail : List Pos) : List ℕ :=
  trail.map (fun p => log2 ((b p).getD 1))

/-- `Game2048.utility`: terminal sentinels, else the best of the snake
evaluations along `RIGHT` and `DOWN`. -/
def utilityS (s : GState) : ℚ :=
  if s.terminalScore ≤ scoreS s then maxUtility s
  else if actionsS s = [] then minUtility s
  else
    let tr := powersOf s.board (boardAsSnake s.size Direction.RIGHT)
    let td := powersOf s.board (boardAsSnake s.size Direction.DOWN)
    max (utilityAux tr.length 0 tr) (utilityAux td.length 0 td)

/-- A concrete board from an association list (missing positions empty). -/
def boardOfList (l : List (Pos × Option ℕ)) : Board :=
  fun p =>
    match l.find? (fun q => decide (q.1 = p)) with
    | some q => q.2
    | none => none

/-- The action is within the domain the Python code is defined on: insertion
positions come from the board rectangle (`all_actions` only builds those). -/
def actionWF (s : GState) : Action → Prop
  | .insert p => p ∈ rectList s.size
  | .slide _ => True

end Solve2048

namespace Solve2048

/-! ## Claim C5: the merge-once rule on a crafted lane -/

/-- The crafted lane of C5: a 1×4 board holding `[2, 2, 2, 2]`. -/
def laneState : GState :=
  ⟨boardOfList [((0, 0), some 2), ((0, 1), some 2), ((0, 2), some 2), ((0, 3), some 2)],
    1, (1, 4), 512⟩

/-- C5: in a single `Slide` no resulting tile is the product of more than one
merge: the lane `[2, 2, 2, 2]` slid toward the lane start yields
`[4, 4, empty, empty]` in scan order (and not `[8, empty, empty, empty]`),
for a slide toward either end of the lane. -/
theorem C5_merge_once :
    ((invoke laneState (Action.slide Direction.LEFT)).map
        (fun t => (rectList (1, 4)).map t.board)
      = some [some 4, some 4, none, none]) ∧
    ((invoke laneState (Action.slide Direction.RIGHT)).map
        (fun t => ((rectList (1, 4)).reverse).map t.board)
      = some [some 4, some 4, none, none]) := by
  decide

/-! ## Claim C3: `invoke` fails exactly when `can_invoke` is false -/

/-- C3: for a wellformed action, `invoke` fails (the *InvalidAction* error,
embedded as `none`) exactly when `can_invoke` is false, and a successful
`invoke` returns a new state whose player is the opposite of the input
player, with the same size and terminal score.  `invoke` is a pure function
of the input state, which is left untouched (immutability is intrinsic to
the embedding: `applyAction` builds a fresh board). -/
theorem C3_invoke_invalid_action (s : GState) (a : Action) (ha : actionWF s a) :
    (invoke s a = none ↔ canInvoke s a = false) ∧
    ∀ t, invoke s a = some t →
      t.player = -s.player ∧ t.size = s.size ∧ t.terminalScore = s.terminalScore := by
  constructor
  · by_cases h : canInvoke s a <;> simp [invoke, h]
  · intro t ht
    rw [invoke] at ht
    split at ht
    · cases ht
      cases a <;> simp [applyAction]
    · cases ht

/-- Witness for C3 at a concrete input: the 1×2 board `[2, _]` with the
actor to move and the illegal `Slide LEFT`. -/
theorem C3_invoke_invalid_action_witness :
    actionWF ⟨boardOfList [((0, 0), some 2)], 1, (1, 2), 16⟩ (Action.slide Direction.LEFT) ∧
    ((invoke ⟨boardOfList [((0, 0), some 2)], 1, (1, 2), 16⟩ (Action.slide Direction.LEFT) = none ↔
        canInvoke ⟨boardOfList [((0, 0), some 2)], 1, (1, 2), 16⟩ (Action.slide Direction.LEFT) = false) ∧
      ∀ t, invoke ⟨boardOfList [((0, 0), some 2)], 1, (1, 2), 16⟩ (Action.slide Direction.LEFT) = some t →
        t.player = -(1 : ℤ) ∧ t.size = (1, 2) ∧ t.terminalScore = 16) :=
  ⟨trivial, C3_invoke_invalid_action ⟨boardOfList [((0, 0), some 2)], 1, (1, 2), 16⟩
    (Action.slide Direction.LEFT) trivial⟩

/-! ## Claim C8: state equality and the state hash -/

/-- `tuple(self.state.items())`: the board dict items in key order. -/
def stateItems (s : GState) : List (Pos × Option ℕ) :=
  (rectList s.size).map (fun p => (p, s.board p))

/-- The tuple `(tuple(state.items()), player, size, terminal_score)` that
`Game2048.__hash__` hashes.  CPython's `hash` is deterministic on a fixed
input, so equal tuples give equal hash values; we model the hash by the
tuple itself. -/
def hashInput (s : GState) : List (Pos × Option ℕ) × ℤ × Pos × ℕ :=
  (stateItems s, s.player, s.size, s.terminalScore)

/-- The four-field equality of the data model: boards agree on the whole
rectangle (the dict key set), and the other three fields coincide. -/
def fieldsEq (s t : GState) : Prop :=
  (∀ p ∈ rectList s.size, s.board p = t.board p) ∧
    s.player = t.player ∧ s.size = t.size ∧ s.terminalScore = t.terminalScore

/-- C8: two embedded states are equal iff their board, player to move, size
and terminal score are all equal; and the hash input tuple is determined by
— and in turn determines — exactly the four fields (boards compared on the
rectangle the dict stores), so structurally equal states have equal hashes. -/
theorem C8_equality_and_hash (s t : GState) :
    ((s = t) ↔
      (s.board = t.board ∧ s.player = t.player ∧ s.size = t.size ∧
        s.terminalScore = t.terminalScore)) ∧
    (fieldsEq s t ↔ hashInput s = hashInput t) := by
  constructor
  · constructor
    · rintro rfl
      exact ⟨rfl, rfl, rfl, rfl⟩
    · rintro ⟨h1, h2, h3, h4⟩
      cases s; cases t
      simp_all
  · constructor
    · rintro ⟨hb, hp, hsz, hts⟩
      unfold hashInput stateItems
      rw [hsz] at hb ⊢
      refine congrArg₂ _ ?_ (by rw [hp, hts])
      exact List.map_congr_left (fun p hp => by rw [hb p hp])
    · intro h
      unfold hashInput at h
      simp only [Prod.mk.injEq] at h
      obtain ⟨hitems, hp, hsz, hts⟩ := h
      refine ⟨?_, hp, hsz, hts⟩
      intro p hmem
      unfold stateItems at hitems
      rw [hsz] at hitems hmem
      have := (List.map_inj_left).1 hitems p hmem
      exact congrArg Prod.snd this

end Solve2048


namespace Solve2048

/-! ## Board sums and conservation under slides -/

/-- A tile's contribution to the board total (empty counts 0). -/
def tileVal (x : Option ℕ) : ℕ :=
  x.getD 0

/-- Sum of the tile values over a list of positions. -/
def sumOn (l : List Pos) (b : Board) : ℕ :=
  (l.map (fun p => tileVal (b p))).sum

/-- Total tile mass of a state: sum over the board rectangle. -/
def boardSum (s : GState) : ℕ :=
  sumOn (rectList s.size) s.board

theorem rectList_eq_product (h w : ℕ) :
    rectList (h, w) = (List.range h).product (List.range w) := rfl

theorem rectList_nodup (h w : ℕ) : (rectList (h, w)).Nodup := by
  rw [rectList_eq_product]
  exact List.Nodup.product (List.nodup_range _) (List.nodup_range _)

theorem mem_rectList {h w : ℕ} {p : Pos} :
    p ∈ rectList (h, w) ↔ p.1 < h ∧ p.2 < w := by
  rw [rectList_eq_product]
  constructor
  · intro hp
    have := List.mem_product.1 hp
    simpa [List.mem_range] using this
  · intro hp
    exact List.mem_product.2 (by simpa [List.mem_range] using hp)

@[simp] theorem updateB_same (b : Board) (p : Pos) (v : Option ℕ) :
    updateB b p v p = v := by
  simp [updateB]

theorem updateB_ne (b : Board) (p : Pos) (v : Option ℕ) {q : Pos} (h : q ≠ p) :
    updateB b p v q = b q := by
  simp [updateB, h]

@[simp] theorem sumOn_nil (b : Board) : sumOn [] b = 0 := rfl

@[simp] theorem sumOn_cons (b : Board) (q : Pos) (t : List Pos) :
    sumOn (q :: t) b = tileVal (b q) + sumOn t b := by
  simp [sumOn]

theorem sumOn_congr {l : List Pos} {b1 b2 : Board} (h : ∀ p ∈ l, b1 p = b2 p) :
    sumOn l b1 = sumOn l b2 :=
  congrArg List.sum (List.map_congr_left fun p hp => by rw [h p hp])

theorem sumOn_update_not_mem {l : List Pos} {p : Pos} (b : Board) (v : Option ℕ)
    (h : p ∉ l) : sumOn l (updateB b p v) = sumOn l b :=
  sumOn_congr fun _q hq => updateB_ne _ _ _ (fun e => h (e ▸ hq))

theorem sumOn_update {l : List Pos} {p : Pos} (b : Board) (v : Option ℕ)
    (hnd : l.Nodup) (hp : p ∈ l) :
    sumOn l (updateB b p v) + tileVal (b p) = sumOn l b + tileVal v := by
  induction l with
  | nil => cases hp
  | cons q t ih =>
    rw [List.nodup_cons] at hnd
    rcases List.mem_cons.1 hp with h | h
    · have hpt : p ∉ t := by rw [h]; exact hnd.1
      have ht : sumOn t (updateB b p v) = sumOn t b := sumOn_update_not_mem _ _ hpt
      rw [sumOn_cons, sumOn_cons, ← h, updateB_same, ht]
      omega
    · have hq : q ≠ p := fun e => hnd.1 (e ▸ h)
      rw [sumOn_cons, sumOn_cons, updateB_ne _ _ _ hq]
      have := ih hnd.2 h
      omega

/-- The `_eliminate_empty_tiles` inner loop preserves the board total: the
queue always holds distinct, already-visited positions whose cells are
empty, so each transfer moves a value onto an empty cell and clears its
source. -/
theorem elimFold_sum {R : List Pos} (hR : R.Nodup) :
    ∀ (row : List Pos) (b : Board) (queue : List Pos),
      row.Nodup →
      (∀ p ∈ row, p ∈ R) →
      (∀ q ∈ queue, q ∈ R ∧ b q = none) →
      queue.Nodup →
      (∀ q ∈ queue, q ∉ row) →
      sumOn R (row.foldl elimStep (b, queue)).1 = sumOn R b := by
  intro row
  induction row with
  | nil => intro b queue _ _ _ _ _; rfl
  | cons pos rest ih =>
    intro b queue hnd hsub hq hqnd hdisj
    rw [List.nodup_cons] at hnd
    rw [List.foldl_cons]
    rcases hbpos : b pos with _ | c
    · have hstep : elimStep (b, queue) pos = (b, queue ++ [pos]) := by
        simp [elimStep, hbpos]
      rw [hstep]
      refine ih b (queue ++ [pos]) hnd.2 (fun p hp => hsub p (List.mem_cons_of_mem _ hp))
        ?_ ?_ ?_
      · intro q hmem
        rcases List.mem_append.1 hmem with hmem | hmem
        · exact hq q hmem
        · rw [List.mem_singleton.1 hmem]
          exact ⟨hsub pos (List.mem_cons_self _ _), hbpos⟩
      · rw [List.nodup_append]
        refine ⟨hqnd, List.nodup_singleton _, ?_⟩
        intro q hmem hq1
        rw [List.mem_singleton] at hq1
        exact (hdisj q hmem) (hq1 ▸ List.mem_cons_self _ _)
      · intro q hmem
        rcases List.mem_append.1 hmem with hmem | hmem
        · exact fun hr => (hdisj q hmem) (List.mem_cons_of_mem _ hr)
        · rw [List.mem_singleton.1 hmem]
          exact hnd.1
    · rcases queue with _ | ⟨e, qrest⟩
      · have hstep : elimStep (b, []) pos = (b, []) := by
          simp [elimStep, hbpos]
        rw [hstep]
        exact ih b [] hnd.2 (fun p hp => hsub p (List.mem_cons_of_mem _ hp))
          (by simp) (by simp) (by simp)
      · have he : e ∈ R ∧ b e = none := hq e (List.mem_cons_self _ _)
        have hepos : e ≠ pos := by
          intro hcontra
          exact (hdisj e (List.mem_cons_self _ _)) (hcontra ▸ List.mem_cons_self _ _)
        have hstep : elimStep (b, e :: qrest) pos
            = (updateB (updateB b e (some c)) pos none, qrest ++ [pos]) := by
          simp [elimStep, hbpos]
        rw [hstep]
        have hposR : pos ∈ R := hsub pos (List.mem_cons_self _ _)
        have s1 := sumOn_update (l := R) b (some c) hR he.1
        have hb1pos : updateB b e (some c) pos = some c := by
          rw [updateB_ne _ _ _ (Ne.symm hepos), hbpos]
        have s2 := sumOn_update (l := R) (updateB b e (some c)) none hR hposR
        rw [hb1pos] at s2
        rw [List.nodup_cons] at hqnd
        have hsum : sumOn R (updateB (updateB b e (some c)) pos none) = sumOn R b := by
          rw [he.2] at s1
          simp [tileVal] at s1 s2
          omega
        rw [ih (updateB (updateB b e (some c)) pos none) (qrest ++ [pos]) hnd.2
          (fun p hp => hsub p (List.mem_cons_of_mem _ hp)) ?_ ?_ ?_]
        · exact hsum
        · intro q hmem
          rcases List.mem_append.1 hmem with hmem | hmem
          · have hqR := hq q (List.mem_cons_of_mem _ hmem)
            have hqpos : q ≠ pos := fun hcontra =>
              (hdisj q (List.mem_cons_of_mem _ hmem)) (hcontra ▸ List.mem_cons_self _ _)
            have hqe : q ≠ e := fun hcontra => hqnd.1 (hcontra ▸ hmem)
            refine ⟨hqR.1, ?_⟩
            rw [updateB_ne _ _ _ hqpos, updateB_ne _ _ _ hqe]
            exact hqR.2
          · rw [List.mem_singleton.1 hmem]
            exact ⟨hposR, by simp⟩
        · rw [List.nodup_append]
          refine ⟨hqnd.2, List.nodup_singleton _, ?_⟩
          intro q hmem hq1
          rw [List.mem_singleton] at hq1
          subst hq1
          exact (hdisj q (List.mem_cons_of_mem _ hmem)) (List.mem_cons_self _ _)
        · intro q hmem
          rcases List.mem_append.1 hmem with hmem | hmem
          · exact fun hr => (hdisj q (List.mem_cons_of_mem _ hmem)) (List.mem_cons_of_mem _ hr)
          · rw [List.mem_singleton.1 hmem]
            exact hnd.1

/-- One `_eliminate_empty_tiles` row pass preserves the board total. -/
theorem eliminateRow_sum {R : List Pos} (hR : R.Nodup) {row : List Pos} (b : Board)
    (hnd : row.Nodup) (hsub : ∀ p ∈ row, p ∈ R) :
    sumOn R (eliminateRow b row) = sumOn R b :=
  elimFold_sum hR row b [] hnd hsub (by simp) (by simp) (by simp)

/-- `_eliminate_empty_tiles` preserves the board total. -/
theorem eliminateEmptyTiles_sum {R : List Pos} (hR : R.Nodup) :
    ∀ (rows : List (List Pos)) (b : Board),
      (∀ row ∈ rows, row.Nodup ∧ ∀ p ∈ row, p ∈ R) →
      sumOn R (eliminateEmptyTiles b rows) = sumOn R b := by
  intro rows
  induction rows with
  | nil => intro b _; rfl
  | cons row rest ih =>
    intro b hrows
    have hrow := hrows row (List.mem_cons_self _ _)
    unfold eliminateEmptyTiles at *
    rw [List.foldl_cons, ih (eliminateRow b row)
      (fun r hr => hrows r (List.mem_cons_of_mem _ hr))]
    exact eliminateRow_sum hR b hrow.1 hrow.2

/-- The `_squash_equal_tiles` inner loop preserves the board total: merging
replaces `v + v` at two distinct cells by `2 v` at one of them. -/
theorem squashFold_sum {R : List Pos} (hR : R.Nodup) :
    ∀ (row : List Pos) (b : Board) (prev : Option ℕ) (prevPos : Option Pos),
      row.Nodup →
      (∀ p ∈ row, p ∈ R) →
      (∀ pp, prevPos = some pp → pp ∈ R ∧ pp ∉ row ∧ b pp = prev) →
      sumOn R (row.foldl squashStep (b, prev, prevPos)).1 = sumOn R b := by
  intro row
  induction row with
  | nil => intro b prev prevPos _ _ _; rfl
  | cons pos rest ih =>
    intro b prev prevPos hnd hsub hJ
    rw [List.nodup_cons] at hnd
    rw [List.foldl_cons]
    have hposR : pos ∈ R := hsub pos (List.mem_cons_self _ _)
    rcases hbpos : b pos with _ | cv
    · have hstep : squashStep (b, prev, prevPos) pos = (b, none, some pos) := by
        rcases prev with _ | pv <;> rcases prevPos with _ | pp <;>
          simp [squashStep, hbpos]
      rw [hstep]
      refine ih b none (some pos) hnd.2
        (fun p hp => hsub p (List.mem_cons_of_mem _ hp)) ?_
      intro pp hpp
      cases hpp
      exact ⟨hposR, hnd.1, hbpos⟩
    · rcases prev with _ | pv
      · have hstep : squashStep (b, none, prevPos) pos = (b, some cv, some pos) := by
          rcases prevPos with _ | pp <;> simp [squashStep, hbpos]
        rw [hstep]
        refine ih b (some cv) (some pos) hnd.2
          (fun p hp => hsub p (List.mem_cons_of_mem _ hp)) ?_
        intro pp hpp
        cases hpp
        exact ⟨hposR, hnd.1, hbpos⟩
      · rcases prevPos with _ | pp
        · have hstep : squashStep (b, some pv, none) pos = (b, some cv, some pos) := by
            simp [squashStep, hbpos]
          rw [hstep]
          refine ih b (some cv) (some pos) hnd.2
            (fun p hp => hsub p (List.mem_cons_of_mem _ hp)) ?_
          intro pp hpp
          cases hpp
          exact ⟨hposR, hnd.1, hbpos⟩
        · have hJpp := hJ pp rfl
          by_cases hcv : cv = pv
          · subst hcv
            have hstep : squashStep (b, some cv, some pp) pos
                = (updateB (updateB b pp (some (cv * 2))) pos none, none, some pos) := by
              simp [squashStep, hbpos]
            rw [hstep]
            have hpppos : pp ≠ pos := fun hcontra =>
              hJpp.2.1 (hcontra ▸ List.mem_cons_self _ _)
            have s1 := sumOn_update (l := R) b (some (cv * 2)) hR hJpp.1
            have hb1pos : updateB b pp (some (cv * 2)) pos = some cv := by
              rw [updateB_ne _ _ _ (Ne.symm hpppos), hbpos]
            have s2 := sumOn_update (l := R) (updateB b pp (some (cv * 2))) none hR hposR
            rw [hb1pos] at s2
            have hbpp : b pp = some cv := hJpp.2.2
            have hsum : sumOn R (updateB (updateB b pp (some (cv * 2))) pos none)
                = sumOn R b := by
              rw [hbpp] at s1
              simp [tileVal] at s1 s2
              omega
            rw [ih (updateB (updateB b pp (some (cv * 2))) pos none) none (some pos) hnd.2
              (fun p hp => hsub p (List.mem_cons_of_mem _ hp)) ?_]
            · exact hsum
            · intro pp2 hpp2
              cases hpp2
              exact ⟨hposR, hnd.1, by simp⟩
          · have hstep : squashStep (b, some pv, some pp) pos = (b, some cv, some pos) := by
              simp [squashStep, hbpos, hcv]
            rw [hstep]
            refine ih b (some cv) (some pos) hnd.2
              (fun p hp => hsub p (List.mem_cons_of_mem _ hp)) ?_
            intro pp2 hpp2
            cases hpp2
            exact ⟨hposR, hnd.1, hbpos⟩

/-- One `_squash_equal_tiles` row pass preserves the board total. -/
theorem squashRow_sum {R : List Pos} (hR : R.Nodup) {row : List Pos} (b : Board)
    (hnd : row.Nodup) (hsub : ∀ p ∈ row, p ∈ R) :
    sumOn R (squashRow b row) = sumOn R b :=
  squashFold_sum hR row b none none hnd hsub (by simp)

/-- `_squash_equal_tiles` preserves the board total. -/
theorem squashEqualTiles_sum {R : List Pos} (hR : R.Nodup) :
    ∀ (rows : List (List Pos)) (b : Board),
      (∀ row ∈ rows, row.Nodup ∧ ∀ p ∈ row, p ∈ R) →
      sumOn R (squashEqualTiles b rows) = sumOn R b := by
  intro rows
  induction rows with
  | nil => intro b _; rfl
  | cons row rest ih =>
    intro b hrows
    have hrow := hrows row (List.mem_cons_self _ _)
    unfold squashEqualTiles at *
    rw [List.foldl_cons, ih (squashRow b row)
      (fun r hr => hrows r (List.mem_cons_of_mem _ hr))]
    exact squashRow_sum hR b hrow.1 hrow.2

end Solve2048

namespace Solve2048

/-- `_rotate_board` for `LEFT`: the natural rows, left to right. -/
theorem rotateBoard_LEFT (h w : ℕ) :
    rotateBoard (h, w) Direction.LEFT
      = (List.range h).map (fun i => (List.range w).map (fun j => ((i : ℕ), (j : ℕ)))) := by
  simp [rotateBoard, List.map_map, Function.comp]

/-- `_rotate_board` for `RIGHT`: the rows, each right to left. -/
theorem rotateBoard_RIGHT (h w : ℕ) :
    rotateBoard (h, w) Direction.RIGHT
      = (List.range h).map
          (fun i => (((List.range w).map (fun j => ((i : ℕ), (j : ℕ)))).reverse)) := by
  simp [rotateBoard, List.map_map, List.map_reverse, Function.comp]

/-- `_rotate_board` for `UP`: the columns, top to bottom. -/
theorem rotateBoard_UP (h w : ℕ) :
    rotateBoard (h, w) Direction.UP
      = (List.range w).map (fun j => (List.range h).map (fun i => ((i : ℕ), (j : ℕ)))) := by
  simp [rotateBoard, List.map_map, Function.comp]

/-- `_rotate_board` for `DOWN`: the columns, each bottom to top. -/
theorem rotateBoard_DOWN (h w : ℕ) :
    rotateBoard (h, w) Direction.DOWN
      = (List.range w).map
          (fun j => (((List.range h).map (fun i => ((i : ℕ), (j : ℕ)))).reverse)) := by
  simp [rotateBoard, List.map_map, List.map_reverse, Function.comp]

/-- Every traversal row produced by `_rotate_board` is duplicate-free and
stays inside the board rectangle. -/
theorem rotateBoard_rows {h w : ℕ} {d : Direction} :
    ∀ row ∈ rotateBoard (h, w) d, row.Nodup ∧ ∀ p ∈ row, p ∈ rectList (h, w) := by
  have hrowOK : ∀ i < h, ((List.range w).map (fun j => ((i : ℕ), (j : ℕ)))).Nodup
      ∧ ∀ p ∈ (List.range w).map (fun j => ((i : ℕ), (j : ℕ))), p ∈ rectList (h, w) := by
    intro i hi
    constructor
    · exact (List.nodup_range _).map (fun a b hab => (Prod.ext_iff.1 hab).2)
    · intro p hp
      obtain ⟨j, hj, rfl⟩ := List.mem_map.1 hp
      rw [List.mem_range] at hj
      exact mem_rectList.2 ⟨hi, hj⟩
  have hcolOK : ∀ j < w, ((List.range h).map (fun i => ((i : ℕ), (j : ℕ)))).Nodup
      ∧ ∀ p ∈ (List.range h).map (fun i => ((i : ℕ), (j : ℕ))), p ∈ rectList (h, w) := by
    intro j hj
    constructor
    · exact (List.nodup_range _).map (fun a b hab => (Prod.ext_iff.1 hab).1)
    · intro p hp
      obtain ⟨i, hi, rfl⟩ := List.mem_map.1 hp
      rw [List.mem_range] at hi
      exact mem_rectList.2 ⟨hi, hj⟩
  intro row hrow
  cases d
  · rw [rotateBoard_UP] at hrow
    obtain ⟨j, hj, rfl⟩ := List.mem_map.1 hrow
    rw [List.mem_range] at hj
    exact hcolOK j hj
  · rw [rotateBoard_RIGHT] at hrow
    obtain ⟨i, hi, rfl⟩ := List.mem_map.1 hrow
    rw [List.mem_range] at hi
    exact ⟨List.nodup_reverse.2 (hrowOK i hi).1,
      fun p hp => (hrowOK i hi).2 p (List.mem_reverse.1 hp)⟩
  · rw [rotateBoard_DOWN] at hrow
    obtain ⟨j, hj, rfl⟩ := List.mem_map.1 hrow
    rw [List.mem_range] at hj
    exact ⟨List.nodup_reverse.2 (hcolOK j hj).1,
      fun p hp => (hcolOK j hj).2 p (List.mem_reverse.1 hp)⟩
  · rw [rotateBoard_LEFT] at hrow
    obtain ⟨i, hi, rfl⟩ := List.mem_map.1 hrow
    rw [List.mem_range] at hi
    exact hrowOK i hi

/-- A slide never changes the total tile mass of the rectangle. -/
theorem slideBoard_sum (b : Board) (h w : ℕ) (d : Direction) :
    sumOn (rectList (h, w)) (slideBoard b (h, w) d) = sumOn (rectList (h, w)) b := by
  have hR := rectList_nodup h w
  have hrows := rotateBoard_rows (h := h) (w := w) (d := d)
  unfold slideBoard
  rw [eliminateEmptyTiles_sum hR _ _ hrows, squashEqualTiles_sum hR _ _ hrows,
    eliminateEmptyTiles_sum hR _ _ hrows]

/-! ## Claim C10: slides conserve the total tile mass -/

/-- C10: for every Actor state and legal slide, the sum of all tile values
of the board returned by `invoke` equals the sum over the input board:
compaction moves tiles and merging replaces `v + v` by `2 v`. -/
theorem C10_slide_conserves_sum (s : GState) (d : Direction) (t : GState)
    (hp : s.player = 1) (hinv : invoke s (Action.slide d) = some t) :
    boardSum t = boardSum s := by
  rw [invoke] at hinv
  split at hinv
  · cases hinv
    obtain ⟨b, pl, ⟨h, w⟩, ts⟩ := s
    simp only [boardSum, applyAction]
    exact slideBoard_sum b h w d
  · cases hinv

/-- Witness for C10: sliding the crafted lane `[2, 2, 2, 2]` left keeps the
total at 8. -/
theorem C10_slide_conserves_sum_witness :
    (laneState.player = 1 ∧
      invoke laneState (Action.slide Direction.LEFT)
        = some (applyAction laneState (Action.slide Direction.LEFT))) ∧
    boardSum (applyAction laneState (Action.slide Direction.LEFT)) = boardSum laneState := by
  have hinv : invoke laneState (Action.slide Direction.LEFT)
      = some (applyAction laneState (Action.slide Direction.LEFT)) := by
    rw [invoke]
    simp only [show canInvoke laneState (Action.slide Direction.LEFT) = true from by decide,
      if_true]
  exact ⟨⟨rfl, hinv⟩, C10_slide_conserves_sum laneState Direction.LEFT _ rfl hinv⟩

end Solve2048

namespace Solve2048

/-! ## Claim C4: terminal sentinels of `utility` -/

theorem foldl_max_init_le (l : List ℕ) (a : ℕ) : a ≤ l.foldl max a := by
  induction l generalizing a with
  | nil => exact le_refl a
  | cons x t ih => exact le_trans (le_max_left a x) (ih (max a x))

theorem mem_le_foldl_max {l : List ℕ} {x : ℕ} (hx : x ∈ l) (a : ℕ) :
    x ≤ l.foldl max a := by
  induction l generalizing a with
  | nil => cases hx
  | cons y t ih =>
    rcases List.mem_cons.1 hx with h | h
    · subst h
      exact le_trans (le_max_right a x) (foldl_max_init_le t _)
    · exact ih h _

/-- Every tile value on the board is bounded by the score. -/
theorem tile_le_score {s : GState} {p : Pos} {v : ℕ}
    (hp : p ∈ rectList s.size) (hv : s.board p = some v) : v ≤ scoreS s := by
  unfold scoreS
  refine mem_le_foldl_max ?_ 0
  rw [List.mem_filterMap]
  exact ⟨p, hp, hv⟩

/-- Once the scan has triggered, it stays triggered. -/
theorem canSlideFold_done (b : Board) (l : List Pos)
    (st : Bool × Option (Option ℕ) × Option ℕ) (h : st.1 = true) :
    (l.foldl (canSlideStep b) st).1 = true := by
  induction l generalizing st with
  | nil => exact h
  | cons pos rest ih =>
    rw [List.foldl_cons]
    obtain ⟨d, prev, prevNE⟩ := st
    cases d
    · cases h
    · have hstep : canSlideStep b (true, prev, prevNE) pos = (true, prev, prevNE) := by
        rcases b pos with _ | c <;> rfl
      rw [hstep]
      exact ih _ rfl

/-- A scan that reaches an empty cell immediately followed by a tile
triggers. -/
theorem rowCanSlide_adjacent {b : Board} {x y : Pos} {v : ℕ}
    (hx : b x = none) (hy : b y = some v) (l1 l2 : List Pos) :
    rowCanSlide b (l1 ++ x :: y :: l2) = true := by
  unfold rowCanSlide
  rw [List.foldl_append]
  set st := l1.foldl (canSlideStep b) (false, (none : Option (Option ℕ)), (none : Option ℕ))
  obtain ⟨d, prev, prevNE⟩ := st
  cases d
  · have hstepx : canSlideStep b (false, prev, prevNE) x
        = (false, some (none : Option ℕ), prevNE) := by
      simp [canSlideStep, hx]
    have hstepy : canSlideStep b (false, some (none : Option ℕ), prevNE) y
        = (true, some (none : Option ℕ), prevNE) := by
      simp [canSlideStep, hy]
    rw [List.foldl_cons, hstepx, List.foldl_cons, hstepy]
    exact canSlideFold_done b l2 _ rfl
  · exact canSlideFold_done b _ _ rfl

/-- A list whose cells hold both an empty and a non-empty value contains an
adjacent differing pair. -/
theorem adjacent_mixed {b : Board} :
    ∀ (l : List Pos), (∃ x ∈ l, b x = none) → (∃ y ∈ l, b y ≠ none) →
      ∃ l1 x y l2, l = l1 ++ x :: y :: l2 ∧
        ((b x = none ∧ b y ≠ none) ∨ (b x ≠ none ∧ b y = none)) := by
  intro l
  induction l with
  | nil => rintro ⟨x, hx, _⟩; cases hx
  | cons z rest ih =>
    rintro ⟨x, hx, hxe⟩ ⟨y, hy, hyne⟩
    rcases hrest : rest with _ | ⟨z2, rest2⟩
    · subst hrest
      rw [List.mem_singleton] at hx hy
      subst hx; subst hy
      exact absurd hxe hyne
    · subst hrest
      by_cases hz : b z = none
      · by_cases hz2 : b z2 = none
        · -- both start cells empty; the non-empty witness lives in the tail
          have hyrest : y ∈ z2 :: rest2 := by
            rcases List.mem_cons.1 hy with h | h
            · exact absurd (h ▸ hz) hyne
            · exact h
          obtain ⟨l1, x1, y1, l2, heq, hdiff⟩ :=
            ih ⟨z2, List.mem_cons_self _ _, hz2⟩ ⟨y, hyrest, hyne⟩
          exact ⟨z :: l1, x1, y1, l2, by rw [heq]; rfl, hdiff⟩
        · exact ⟨[], z, z2, rest2, rfl, Or.inl ⟨hz, hz2⟩⟩
      · by_cases hz2 : b z2 = none
        · exact ⟨[], z, z2, rest2, rfl, Or.inr ⟨hz, hz2⟩⟩
        · -- both start cells non-empty; the empty witness lives in the tail
          have hxrest : x ∈ z2 :: rest2 := by
            rcases List.mem_cons.1 hx with h | h
            · exact absurd (h ▸ hxe) hz
            · exact h
          obtain ⟨l1, x1, y1, l2, heq, hdiff⟩ :=
            ih ⟨x, hxrest, hxe⟩ ⟨z2, List.mem_cons_self _ _, hz2⟩
          exact ⟨z :: l1, x1, y1, l2, by rw [heq]; rfl, hdiff⟩

/-- A duplicate-free traversal lane holding both an empty and a non-empty
cell yields a legal slide along the lane in one of the two orientations:
the lane itself, or the lane reversed. -/
theorem lane_slide {b : Board} {lane : List Pos}
    (hmixA : ∃ x ∈ lane, b x = none) (hmixB : ∃ y ∈ lane, b y ≠ none) :
    rowCanSlide b lane = true ∨ rowCanSlide b lane.reverse = true := by
  obtain ⟨l1, x, y, l2, heq, hdiff⟩ := adjacent_mixed lane hmixA hmixB
  rcases hdiff with ⟨hx, hy⟩ | ⟨hx, hy⟩
  · obtain ⟨v, hv⟩ := Option.ne_none_iff_exists.1 hy
    exact Or.inl (heq ▸ rowCanSlide_adjacent hx hv.symm l1 l2)
  · obtain ⟨v, hv⟩ := Option.ne_none_iff_exists.1 hx
    refine Or.inr ?_
    have : lane.reverse = l2.reverse ++ y :: x :: l1.reverse := by
      rw [heq]
      simp
    rw [this]
    exact rowCanSlide_adjacent hy hv.symm l2.reverse l1.reverse

/-- A board holding both a tile and an empty cell admits a legal slide: if
the tile's row also holds an empty cell, slide along that row; otherwise
the empty cell's column meets the tile's row at a tile, so slide along that
column. -/
theorem slide_exists {size : Pos} {b : Board} {p q : Pos}
    (hp : p ∈ rectList size) (hq : q ∈ rectList size)
    (hbp : b p ≠ none) (hbq : b q = none) :
    ∃ d, (rotateBoard size d).any (fun row => rowCanSlide b row) = true := by
  obtain ⟨h, w⟩ := size
  obtain ⟨hp1, hp2⟩ := mem_rectList.1 hp
  obtain ⟨hq1, hq2⟩ := mem_rectList.1 hq
  have hprow : p ∈ (List.range w).map (fun j => ((p.1 : ℕ), (j : ℕ))) := by
    rw [List.mem_map]
    exact ⟨p.2, List.mem_range.2 hp2, by simp⟩
  by_cases hrowmix : ∃ x ∈ (List.range w).map (fun j => ((p.1 : ℕ), (j : ℕ))), b x = none
  · -- the tile's row is mixed: LEFT or RIGHT is legal
    rcases lane_slide hrowmix ⟨p, hprow, hbp⟩ with hcase | hcase
    · refine ⟨Direction.LEFT, ?_⟩
      rw [rotateBoard_LEFT, List.any_eq_true]
      refine ⟨_, List.mem_map.2 ⟨p.1, List.mem_range.2 hp1, rfl⟩, hcase⟩
    · refine ⟨Direction.RIGHT, ?_⟩
      rw [rotateBoard_RIGHT, List.any_eq_true]
      refine ⟨_, List.mem_map.2 ⟨p.1, List.mem_range.2 hp1, rfl⟩, hcase⟩
  · -- the tile's row is full, so the cell above the empty cell's column in
    -- that row is a tile: UP or DOWN is legal
    push_neg at hrowmix
    have hcross : b (p.1, q.2) ≠ none := by
      refine hrowmix (p.1, q.2) ?_
      rw [List.mem_map]
      exact ⟨q.2, List.mem_range.2 hq2, rfl⟩
    have hqcol : q ∈ (List.range h).map (fun i => ((i : ℕ), (q.2 : ℕ))) := by
      rw [List.mem_map]
      exact ⟨q.1, List.mem_range.2 hq1, by simp⟩
    have hcrosscol : (p.1, q.2) ∈ (List.range h).map (fun i => ((i : ℕ), (q.2 : ℕ))) := by
      rw [List.mem_map]
      exact ⟨p.1, List.mem_range.2 hp1, rfl⟩
    rcases lane_slide ⟨q, hqcol, hbq⟩ ⟨(p.1, q.2), hcrosscol, hcross⟩ with hcase | hcase
    · refine ⟨Direction.UP, ?_⟩
      rw [rotateBoard_UP, List.any_eq_true]
      refine ⟨_, List.mem_map.2 ⟨q.2, List.mem_range.2 hq2, rfl⟩, hcase⟩
    · refine ⟨Direction.DOWN, ?_⟩
      rw [rotateBoard_DOWN, List.any_eq_true]
      refine ⟨_, List.mem_map.2 ⟨q.2, List.mem_range.2 hq2, rfl⟩, hcase⟩

end Solve2048

namespace Solve2048

/-- The Actor's legal actions in a position, regardless of whose turn it
is: the legal actions of the same board with the Actor to move. -/
def actorActions (s : GState) : List Action :=
  actionsS ⟨s.board, 1, s.size, s.terminalScore⟩

/-- `Action.slide d` is always in the action universe. -/
theorem slide_mem_allActions (s : GState) (d : Direction) :
    Action.slide d ∈ allActions s := by
  unfold allActions
  rw [List.mem_append]
  right
  rw [List.mem_map]
  exact ⟨d, by cases d <;> simp, rfl⟩

/-- When the mover is not the chance player, `can_invoke` takes the
max branch, which only looks at the board and size. -/
theorem canInvoke_ne_chance {s : GState} (h : s.player ≠ -1) (a : Action) :
    canInvoke s a = canInvoke ⟨s.board, 1, s.size, s.terminalScore⟩ a := by
  unfold canInvoke
  rw [if_neg h, if_neg (by decide : ¬(1 : ℤ) = -1)]

theorem actionsS_eq_actor {s : GState} (h : s.player ≠ -1) :
    actionsS s = actorActions s := by
  unfold actionsS actorActions allActions
  exact List.filter_congr fun a _ => canInvoke_ne_chance h a

/-! ## Claim C4: terminal sentinels of `utility` -/

/-- C4: on a board holding at least one tile (where the Python `score` is
defined), `utility()` returns `max_utility()` whenever the score has
reached the terminal score, and returns `min_utility()` whenever the score
is below the terminal score and the Actor has no legal action. -/
theorem C4_terminal_sentinels (s : GState)
    (hne : ∃ p ∈ rectList s.size, s.board p ≠ none) :
    (s.terminalScore ≤ scoreS s → utilityS s = maxUtility s) ∧
    (scoreS s < s.terminalScore → actorActions s = [] → utilityS s = minUtility s) := by
  constructor
  · intro hscore
    unfold utilityS
    rw [if_pos hscore]
  · intro hscore hact
    unfold utilityS
    rw [if_neg (not_le.2 hscore)]
    have hempty : actionsS s = [] := by
      by_cases hp : s.player = -1
      · rw [List.eq_nil_iff_forall_not_mem]
        intro a ha
        obtain ⟨hmem, hinv⟩ := List.mem_filter.1 ha
        rcases a with q | d
        · have hbq : s.board q = none := by
            unfold canInvoke at hinv
            rw [if_pos hp] at hinv
            simpa using hinv
          have hqrect : q ∈ rectList s.size := by
            unfold allActions at hmem
            rcases List.mem_append.1 hmem with hm | hm
            · obtain ⟨q2, hq2, he⟩ := List.mem_map.1 hm
              cases he
              exact hq2
            · obtain ⟨d2, _, he⟩ := List.mem_map.1 hm
              cases he
          obtain ⟨pt, hpt, hbpt⟩ := hne
          obtain ⟨d, hd⟩ := slide_exists hpt hqrect hbpt hbq
          have hmem2 : Action.slide d ∈ actorActions s := by
            unfold actorActions actionsS
            rw [List.mem_filter]
            refine ⟨slide_mem_allActions _ d, ?_⟩
            unfold canInvoke
            rw [if_neg (by decide : ¬(1 : ℤ) = -1)]
            exact hd
          rw [hact] at hmem2
          cases hmem2
        · unfold canInvoke at hinv
          rw [if_pos hp] at hinv
          cases hinv
      · rw [actionsS_eq_actor hp]
        exact hact
    rw [if_pos hempty]

/-- Witness for C4 at a concrete input: a 1×1 board holding a 2 with
terminal score 2 (a won state). -/
theorem C4_terminal_sentinels_witness :
    (∃ p ∈ rectList ((1 : ℕ), (1 : ℕ)),
      boardOfList [(((0 : ℕ), (0 : ℕ)), some 2)] p ≠ none) ∧
    ((((⟨boardOfList [(((0 : ℕ), (0 : ℕ)), some 2)], 1, (1, 1), 2⟩ : GState)).terminalScore ≤
        scoreS ⟨boardOfList [(((0 : ℕ), (0 : ℕ)), some 2)], 1, (1, 1), 2⟩ →
      utilityS ⟨boardOfList [(((0 : ℕ), (0 : ℕ)), some 2)], 1, (1, 1), 2⟩
        = maxUtility ⟨boardOfList [(((0 : ℕ), (0 : ℕ)), some 2)], 1, (1, 1), 2⟩) ∧
    (scoreS ⟨boardOfList [(((0 : ℕ), (0 : ℕ)), some 2)], 1, (1, 1), 2⟩ <
        (⟨boardOfList [(((0 : ℕ), (0 : ℕ)), some 2)], 1, (1, 1), 2⟩ : GState).terminalScore →
      actorActions ⟨boardOfList [(((0 : ℕ), (0 : ℕ)), some 2)], 1, (1, 1), 2⟩ = [] →
      utilityS ⟨boardOfList [(((0 : ℕ), (0 : ℕ)), some 2)], 1, (1, 1), 2⟩
        = minUtility ⟨boardOfList [(((0 : ℕ), (0 : ℕ)), some 2)], 1, (1, 1), 2⟩)) :=
  ⟨by decide, C4_terminal_sentinels ⟨boardOfList [(((0 : ℕ), (0 : ℕ)), some 2)], 1, (1, 1), 2⟩
    (by decide)⟩

end Solve2048

namespace Solve2048

/-! ## The search measure: recursion in the game tree terminates -/

/-- A game player is one of the two roles. -/
def playerOK (s : GState) : Prop :=
  s.player = 1 ∨ s.player = -1

/-- Termination measure for game-tree recursion: twice the remaining tile
mass before the board saturates at `height * width * terminal_score`, plus
one when the Actor is to move.  A slide keeps the mass and passes to the
chance player; an insertion adds 2 to the mass. -/
def measureS (s : GState) : ℕ :=
  2 * (s.size.1 * s.size.2 * s.terminalScore - boardSum s) +
    (if s.player = -1 then 0 else 1)

theorem playerOK_apply {s : GState} (hok : playerOK s) (a : Action) :
    playerOK (applyAction s a) := by
  rcases hok with h | h <;> rcases a with p | d <;>
    simp [playerOK, applyAction, h]

theorem terminalTest_false {s : GState} (h : terminalTest s = false) :
    scoreS s < s.terminalScore ∧ actionsS s ≠ [] := by
  unfold terminalTest at h
  simp only [Bool.or_eq_false_iff, decide_eq_false_iff_not, not_le] at h
  exact h

theorem sumOn_le {l : List Pos} {b : Board} {M : ℕ}
    (h : ∀ p ∈ l, tileVal (b p) ≤ M) : sumOn l b ≤ l.length * M := by
  induction l with
  | nil => simp
  | cons q t ih =>
    rw [sumOn_cons, List.length_cons]
    have h1 := h q (List.mem_cons_self _ _)
    have h2 := ih fun p hp => h p (List.mem_cons_of_mem _ hp)
    calc tileVal (b q) + sumOn t b ≤ M + t.length * M := Nat.add_le_add h1 h2
    _ = (t.length + 1) * M := by ring

/-- A rectangle with an empty cell cannot be saturated. -/
theorem sumOn_lt_with_zero {l : List Pos} {b : Board} {M : ℕ} {p : Pos}
    (hp : p ∈ l) (hz : tileVal (b p) = 0)
    (h : ∀ q ∈ l, tileVal (b q) ≤ M) : sumOn l b + M ≤ l.length * M := by
  induction l with
  | nil => cases hp
  | cons q t ih =>
    rw [sumOn_cons, List.length_cons]
    rcases List.mem_cons.1 hp with he | hm
    · rw [← he, hz]
      have h2 := sumOn_le (fun r hr => h r (List.mem_cons_of_mem _ hr))
      calc 0 + sumOn t b + M ≤ t.length * M + M := by omega
      _ = (t.length + 1) * M := by ring
    · have h1 := h q (List.mem_cons_self _ _)
      have h2 := ih hm fun r hr => h r (List.mem_cons_of_mem _ hr)
      rw [Nat.succ_mul]
      omega

theorem rectList_length (h w : ℕ) : (rectList (h, w)).length = h * w := by
  rw [rectList_eq_product]
  have hl := List.length_product (List.range h) (List.range w)
  rw [List.length_range, List.length_range] at hl
  exact hl

theorem rectList_nodup_size (size : Pos) : (rectList size).Nodup := by
  obtain ⟨h, w⟩ := size
  exact rectList_nodup h w

theorem rectList_length_size (size : Pos) :
    (rectList size).length = size.1 * size.2 := by
  obtain ⟨h, w⟩ := size
  exact rectList_length h w

theorem slideBoard_sum_size (b : Board) (size : Pos) (d : Direction) :
    sumOn (rectList size) (slideBoard b size d) = sumOn (rectList size) b := by
  obtain ⟨h, w⟩ := size
  exact slideBoard_sum b h w d

theorem mem_actionsS {s : GState} {a : Action} (ha : a ∈ actionsS s) :
    a ∈ allActions s ∧ canInvoke s a = true :=
  ⟨(List.mem_filter.1 ha).1, (List.mem_filter.1 ha).2⟩

theorem insert_mem_rect {s : GState} {p : Pos}
    (hmem : Action.insert p ∈ allActions s) : p ∈ rectList s.size := by
  unfold allActions at hmem
  rcases List.mem_append.1 hmem with hm | hm
  · obtain ⟨q, hq, he⟩ := List.mem_map.1 hm
    cases he
    exact hq
  · obtain ⟨d, _, he⟩ := List.mem_map.1 hm
    cases he

/-- Key step: along a legal action out of a non-terminal position of a
two-role game, the measure strictly decreases. -/
theorem measure_decreasing {s : GState} {a : Action} (hok : playerOK s)
    (hterm : terminalTest s = false) (ha : a ∈ actionsS s) :
    measureS (applyAction s a) < measureS s := by
  obtain ⟨hmem, hinv⟩ := mem_actionsS ha
  obtain ⟨hscore, _⟩ := terminalTest_false hterm
  rcases a with p | d
  · -- insertion: the chance player is to move, the target cell is empty
    have hpl : s.player = -1 := by
      rcases hok with h | h
      · exfalso
        unfold canInvoke at hinv
        rw [if_neg (by rw [h]; decide)] at hinv
        cases hinv
      · exact h
    have hbp : s.board p = none := by
      unfold canInvoke at hinv
      rw [if_pos hpl] at hinv
      simpa using hinv
    have hprect : p ∈ rectList s.size := insert_mem_rect hmem
    have hnd := rectList_nodup_size s.size
    have hsum2 : sumOn (rectList s.size) (updateB s.board p (some 2))
        = sumOn (rectList s.size) s.board + 2 := by
      have hupd := sumOn_update (l := rectList s.size) s.board (some 2) hnd hprect
      rw [hbp] at hupd
      simpa [tileVal] using hupd
    have htile : ∀ q ∈ rectList s.size, tileVal (s.board q) ≤ s.terminalScore - 1 := by
      intro q hq
      rcases hbv : s.board q with _ | v
      · simp [tileVal]
      · have := tile_le_score hq hbv
        simp only [tileVal, Option.getD_some]
        omega
    have hbound := sumOn_lt_with_zero hprect (by simp [tileVal, hbp]) htile
    rw [rectList_length_size] at hbound
    have hts : 1 ≤ s.terminalScore := by omega
    have hmul : s.size.1 * s.size.2 * s.terminalScore
        = s.size.1 * s.size.2 * (s.terminalScore - 1) + s.size.1 * s.size.2 := by
      have hc : s.terminalScore - 1 + 1 = s.terminalScore := Nat.sub_add_cancel hts
      calc s.size.1 * s.size.2 * s.terminalScore
          = s.size.1 * s.size.2 * (s.terminalScore - 1 + 1) := by rw [hc]
      _ = s.size.1 * s.size.2 * (s.terminalScore - 1) + s.size.1 * s.size.2 := by ring
    have hlenpos : 0 < s.size.1 * s.size.2 := by
      rw [← rectList_length_size]
      exact List.length_pos.2 (List.ne_nil_of_mem hprect)
    have hlt : sumOn (rectList s.size) s.board
        < s.size.1 * s.size.2 * s.terminalScore := by omega
    have hform1 : measureS s
        = 2 * (s.size.1 * s.size.2 * s.terminalScore - sumOn (rectList s.size) s.board) := by
      simp only [measureS, boardSum, if_pos hpl, Nat.add_zero]
    have hform2 : measureS (applyAction s (Action.insert p))
        = 2 * (s.size.1 * s.size.2 * s.terminalScore
            - (sumOn (rectList s.size) s.board + 2)) + 1 := by
      simp only [measureS, applyAction, boardSum, hsum2, hpl]
      norm_num
    omega
  · -- slide: the Actor is to move, the tile mass is conserved
    have hplne : s.player ≠ -1 := by
      intro hc
      unfold canInvoke at hinv
      rw [if_pos hc] at hinv
      cases hinv
    have hpl : s.player = 1 := by
      rcases hok with h | h
      · exact h
      · exact absurd h hplne
    have hsumeq : sumOn (rectList s.size) (slideBoard s.board s.size d)
        = sumOn (rectList s.size) s.board := slideBoard_sum_size s.board s.size d
    have hform1 : measureS s
        = 2 * (s.size.1 * s.size.2 * s.terminalScore - sumOn (rectList s.size) s.board)
          + 1 := by
      simp only [measureS, boardSum, if_neg hplne]
    have hform2 : measureS (applyAction s (Action.slide d))
        = 2 * (s.size.1 * s.size.2 * s.terminalScore
            - sumOn (rectList s.size) s.board) := by
      simp only [measureS, applyAction, boardSum, hsumeq, hpl]
      norm_num
    omega

end Solve2048

namespace Solve2048

/-! ## The expectimax search -/

/-- The running maximum `rv = max(rv, v)` over a non-empty list (Python
seeds `rv = -math.inf`; the empty case is unreachable, because expansion
only happens when `actions()` is non-empty). -/
def listMaxQ : List ℚ → ℚ
  | [] => 0
  | x :: t => t.foldl max x

mutual

/-- `search._expectimax_max_value`, with an explicit recursion fuel.  The
fuel is an upper bound on the recursion depth; `measure_decreasing` shows
the game measure strictly decreases along every expansion, so
`expectimaxMaxValueD` below instantiates the fuel with `measureS s + 1`
and the value no longer depends on it (`expectimax_fuel_congr`). -/
def expectimaxMaxValue : ℕ → GState → ℤ → ℚ
  | 0, s, _ => utilityS s
  | fuel + 1, s, d =>
    if terminalTest s ∨ d = 0 then utilityS s
    else
      listMaxQ ((actionsS s).map
        (fun a => expectimaxChanceValue fuel (applyAction s a) (d - 1)))

/-- `search._expectimax_chance_value` with explicit recursion fuel: the
arithmetic mean of the max-values of the children. -/
def expectimaxChanceValue : ℕ → GState → ℤ → ℚ
  | 0, s, _ => utilityS s
  | fuel + 1, s, d =>
    if terminalTest s ∨ d = 0 then utilityS s
    else
      ((actionsS s).map
        (fun a => expectimaxMaxValue fuel (applyAction s a) (d - 1))).sum
        / ((actionsS s).length : ℚ)

end

/-- `_expectimax_max_value` with the fuel saturated: the function of the
program. -/
def expectimaxMaxValueD (s : GState) (d : ℤ) : ℚ :=
  expectimaxMaxValue (measureS s + 1) s d

/-- `_expectimax_chance_value` with the fuel saturated. -/
def expectimaxChanceValueD (s : GState) (d : ℤ) : ℚ :=
  expectimaxChanceValue (measureS s + 1) s d

theorem fuel_congr_aux :
    ∀ (m : ℕ) (s : GState), measureS s = m → playerOK s →
      ∀ (f1 f2 : ℕ) (d : ℤ), m < f1 → m < f2 →
        expectimaxMaxValue f1 s d = expectimaxMaxValue f2 s d ∧
        expectimaxChanceValue f1 s d = expectimaxChanceValue f2 s d := by
  intro m
  induction m using Nat.strong_induction_on with
  | _ m ih =>
    intro s hm hok f1 f2 d h1 h2
    rcases f1 with _ | f1
    · omega
    rcases f2 with _ | f2
    · omega
    by_cases hcond : (terminalTest s = true ∨ d = 0)
    · constructor
      · simp only [expectimaxMaxValue]
        rw [if_pos hcond, if_pos hcond]
      · simp only [expectimaxChanceValue]
        rw [if_pos hcond, if_pos hcond]
    · have hterm : terminalTest s = false := by
        rcases ht : terminalTest s
        · rfl
        · exact absurd (Or.inl ht) hcond
      have hchild : ∀ a ∈ actionsS s,
          expectimaxChanceValue f1 (applyAction s a) (d - 1)
            = expectimaxChanceValue f2 (applyAction s a) (d - 1) ∧
          expectimaxMaxValue f1 (applyAction s a) (d - 1)
            = expectimaxMaxValue f2 (applyAction s a) (d - 1) := by
        intro a ha
        have hdec := measure_decreasing hok hterm ha
        rw [hm] at hdec
        have hih := ih (measureS (applyAction s a)) hdec (applyAction s a) rfl
          (playerOK_apply hok a) f1 f2 (d - 1) (by omega) (by omega)
        exact ⟨hih.2, hih.1⟩
      constructor
      · simp only [expectimaxMaxValue]
        rw [if_neg hcond, if_neg hcond]
        congr 1
        exact List.map_congr_left fun a ha => (hchild a ha).1
      · simp only [expectimaxChanceValue]
        rw [if_neg hcond, if_neg hcond]
        congr 1
        congr 1
        exact List.map_congr_left fun a ha => (hchild a ha).2

/-- Above the measure, the fuel is irrelevant. -/
theorem expectimax_fuel_congr {s : GState} (hok : playerOK s) {f1 f2 : ℕ} (d : ℤ)
    (h1 : measureS s < f1) (h2 : measureS s < f2) :
    expectimaxMaxValue f1 s d = expectimaxMaxValue f2 s d ∧
    expectimaxChanceValue f1 s d = expectimaxChanceValue f2 s d :=
  fuel_congr_aux (measureS s) s rfl hok f1 f2 d h1 h2

/-- The cutoff equation of `_expectimax_max_value`. -/
theorem expectimaxMaxValueD_cutoff (s : GState) (d : ℤ)
    (h : terminalTest s = true ∨ d = 0) : expectimaxMaxValueD s d = utilityS s := by
  unfold expectimaxMaxValueD
  simp only [expectimaxMaxValue]
  rw [if_pos h]

/-- The cutoff equation of `_expectimax_chance_value`. -/
theorem expectimaxChanceValueD_cutoff (s : GState) (d : ℤ)
    (h : terminalTest s = true ∨ d = 0) : expectimaxChanceValueD s d = utilityS s := by
  unfold expectimaxChanceValueD
  simp only [expectimaxChanceValue]
  rw [if_pos h]

/-- The expansion equation of `_expectimax_max_value`: one ply costs one
unit of depth. -/
theorem expectimaxMaxValueD_unfold (s : GState) (d : ℤ) (hok : playerOK s)
    (hterm : terminalTest s = false) (hd : d ≠ 0) :
    expectimaxMaxValueD s d
      = listMaxQ ((actionsS s).map
          (fun a => expectimaxChanceValueD (applyAction s a) (d - 1))) := by
  unfold expectimaxMaxValueD
  simp only [expectimaxMaxValue]
  rw [if_neg (by simp [hterm, hd])]
  congr 1
  refine List.map_congr_left fun a ha => ?_
  have hdec := measure_decreasing hok hterm ha
  exact (expectimax_fuel_congr (playerOK_apply hok a) (d - 1) hdec
    (Nat.lt_succ_self _)).2

/-- The expansion equation of `_expectimax_chance_value`. -/
theorem expectimaxChanceValueD_unfold (s : GState) (d : ℤ) (hok : playerOK s)
    (hterm : terminalTest s = false) (hd : d ≠ 0) :
    expectimaxChanceValueD s d
      = ((actionsS s).map
          (fun a => expectimaxMaxValueD (applyAction s a) (d - 1))).sum
        / ((actionsS s).length : ℚ) := by
  unfold expectimaxChanceValueD
  simp only [expectimaxChanceValue]
  rw [if_neg (by simp [hterm, hd])]
  congr 2
  refine List.map_congr_left fun a ha => ?_
  have hdec := measure_decreasing hok hterm ha
  exact (expectimax_fuel_congr (playerOK_apply hok a) (d - 1) hdec
    (Nat.lt_succ_self _)).1

/-! ## Claim C1: the chance value is the arithmetic mean over insertions -/

/-- C1: at a non-terminal Chance state with remaining depth not zero, the
chance value computed by the expectimax search equals the arithmetic mean
of the Actor-node values of the children reached by the legal actions —
all of which are insertions, each treated as equally likely. -/
theorem C1_expectimax_chance_mean (s : GState) (d : ℤ) (hp : s.player = -1)
    (hterm : terminalTest s = false) (hd : d ≠ 0) :
    (∀ a ∈ actionsS s, ∃ q, a = Action.insert q) ∧
    expectimaxChanceValueD s d
      = ((actionsS s).map
          (fun a => expectimaxMaxValueD (applyAction s a) (d - 1))).sum
        / ((actionsS s).length : ℚ) := by
  constructor
  · intro a ha
    obtain ⟨_, hinv⟩ := mem_actionsS ha
    rcases a with q | dd
    · exact ⟨q, rfl⟩
    · unfold canInvoke at hinv
      rw [if_pos hp] at hinv
      cases hinv
  · exact expectimaxChanceValueD_unfold s d (Or.inr hp) hterm hd

/-- Witness for C1: the 1×2 chance position `[2, _]` searched to depth 1. -/
theorem C1_expectimax_chance_mean_witness :
    ((⟨boardOfList [(((0 : ℕ), (0 : ℕ)), some 2)], -1, (1, 2), 16⟩ : GState).player = -1 ∧
      terminalTest ⟨boardOfList [(((0 : ℕ), (0 : ℕ)), some 2)], -1, (1, 2), 16⟩ = false ∧
      (1 : ℤ) ≠ 0) ∧
    ((∀ a ∈ actionsS (⟨boardOfList [(((0 : ℕ), (0 : ℕ)), some 2)], -1, (1, 2), 16⟩ : GState),
        ∃ q, a = Action.insert q) ∧
      expectimaxChanceValueD ⟨boardOfList [(((0 : ℕ), (0 : ℕ)), some 2)], -1, (1, 2), 16⟩ 1
        = ((actionsS (⟨boardOfList [(((0 : ℕ), (0 : ℕ)), some 2)], -1, (1, 2), 16⟩ : GState)).map
            (fun a => expectimaxMaxValueD
              (applyAction ⟨boardOfList [(((0 : ℕ), (0 : ℕ)), some 2)], -1, (1, 2), 16⟩ a)
              (1 - 1))).sum
          / ((actionsS (⟨boardOfList [(((0 : ℕ), (0 : ℕ)), some 2)], -1, (1, 2), 16⟩ : GState)).length : ℚ)) :=
  ⟨⟨rfl, by decide, by decide⟩,
    C1_expectimax_chance_mean ⟨boardOfList [(((0 : ℕ), (0 : ℕ)), some 2)], -1, (1, 2), 16⟩ 1
      rfl (by decide) (by decide)⟩

end Solve2048

namespace Solve2048

/-! ## Depth semantics: unlimited search and the per-pair model (C7) -/

mutual

/-- The expectimax max-value with no depth cutoff: expansion stops only at
`terminal_test()` (what `depth = -1` is claimed, and proved below, to
compute).  Fuel as in `expectimaxMaxValue`. -/
def expectimaxMaxInf : ℕ → GState → ℚ
  | 0, s => utilityS s
  | fuel + 1, s =>
    if terminalTest s then utilityS s
    else
      listMaxQ ((actionsS s).map (fun a => expectimaxChanceInf fuel (applyAction s a)))

/-- The expectimax chance-value with no depth cutoff. -/
def expectimaxChanceInf : ℕ → GState → ℚ
  | 0, s => utilityS s
  | fuel + 1, s =>
    if terminalTest s then utilityS s
    else
      ((actionsS s).map (fun a => expectimaxMaxInf fuel (applyAction s a))).sum
        / ((actionsS s).length : ℚ)

end

/-- Saturated-fuel unlimited max-value. -/
def expectimaxMaxInfD (s : GState) : ℚ :=
  expectimaxMaxInf (measureS s + 1) s

/-- Saturated-fuel unlimited chance-value. -/
def expectimaxChanceInfD (s : GState) : ℚ :=
  expectimaxChanceInf (measureS s + 1) s

theorem inf_fuel_congr_aux :
    ∀ (m : ℕ) (s : GState), measureS s = m → playerOK s →
      ∀ (f1 f2 : ℕ), m < f1 → m < f2 →
        expectimaxMaxInf f1 s = expectimaxMaxInf f2 s ∧
        expectimaxChanceInf f1 s = expectimaxChanceInf f2 s := by
  intro m
  induction m using Nat.strong_induction_on with
  | _ m ih =>
    intro s hm hok f1 f2 h1 h2
    rcases f1 with _ | f1
    · omega
    rcases f2 with _ | f2
    · omega
    by_cases hterm : terminalTest s = true
    · constructor
      · simp only [expectimaxMaxInf]
        rw [if_pos hterm, if_pos hterm]
      · simp only [expectimaxChanceInf]
        rw [if_pos hterm, if_pos hterm]
    · have htermf : terminalTest s = false := by
        rcases ht : terminalTest s
        · rfl
        · exact absurd ht hterm
      have hchild : ∀ a ∈ actionsS s,
          expectimaxChanceInf f1 (applyAction s a)
            = expectimaxChanceInf f2 (applyAction s a) ∧
          expectimaxMaxInf f1 (applyAction s a)
            = expectimaxMaxInf f2 (applyAction s a) := by
        intro a ha
        have hdec := measure_decreasing hok htermf ha
        rw [hm] at hdec
        have hih := ih (measureS (applyAction s a)) hdec (applyAction s a) rfl
          (playerOK_apply hok a) f1 f2 (by omega) (by omega)
        exact ⟨hih.2, hih.1⟩
      constructor
      · simp only [expectimaxMaxInf]
        rw [if_neg hterm, if_neg hterm]
        congr 1
        exact List.map_congr_left fun a ha => (hchild a ha).1
      · simp only [expectimaxChanceInf]
        rw [if_neg hterm, if_neg hterm]
        congr 1
        congr 1
        exact List.map_congr_left fun a ha => (hchild a ha).2

theorem inf_fuel_congr {s : GState} (hok : playerOK s) {f1 f2 : ℕ}
    (h1 : measureS s < f1) (h2 : measureS s < f2) :
    expectimaxMaxInf f1 s = expectimaxMaxInf f2 s ∧
    expectimaxChanceInf f1 s = expectimaxChanceInf f2 s :=
  inf_fuel_congr_aux (measureS s) s rfl hok f1 f2 h1 h2

theorem expectimaxMaxInfD_cutoff (s : GState) (h : terminalTest s = true) :
    expectimaxMaxInfD s = utilityS s := by
  unfold expectimaxMaxInfD
  simp only [expectimaxMaxInf]
  rw [if_pos h]

theorem expectimaxChanceInfD_cutoff (s : GState) (h : terminalTest s = true) :
    expectimaxChanceInfD s = utilityS s := by
  unfold expectimaxChanceInfD
  simp only [expectimaxChanceInf]
  rw [if_pos h]

theorem expectimaxMaxInfD_unfold (s : GState) (hok : playerOK s)
    (hterm : terminalTest s = false) :
    expectimaxMaxInfD s
      = listMaxQ ((actionsS s).map (fun a => expectimaxChanceInfD (applyAction s a))) := by
  unfold expectimaxMaxInfD
  simp only [expectimaxMaxInf]
  rw [if_neg (by simp [hterm])]
  congr 1
  refine List.map_congr_left fun a ha => ?_
  have hdec := measure_decreasing hok hterm ha
  exact (inf_fuel_congr (playerOK_apply hok a) hdec (Nat.lt_succ_self _)).2

theorem expectimaxChanceInfD_unfold (s : GState) (hok : playerOK s)
    (hterm : terminalTest s = false) :
    expectimaxChanceInfD s
      = ((actionsS s).map (fun a => expectimaxMaxInfD (applyAction s a))).sum
        / ((actionsS s).length : ℚ) := by
  unfold expectimaxChanceInfD
  simp only [expectimaxChanceInf]
  rw [if_neg (by simp [hterm])]
  congr 2
  refine List.map_congr_left fun a ha => ?_
  have hdec := measure_decreasing hok hterm ha
  exact (inf_fuel_congr (playerOK_apply hok a) hdec (Nat.lt_succ_self _)).1

/-- At a negative depth the cutoff `depth == 0` is never reached: the
depth-limited search computes the unlimited search. -/
theorem neg_depth_unlimited_aux :
    ∀ (m : ℕ) (s : GState), measureS s = m → playerOK s →
      ∀ (f : ℕ) (d : ℤ), m < f → d < 0 →
        expectimaxMaxValue f s d = expectimaxMaxInf f s ∧
        expectimaxChanceValue f s d = expectimaxChanceInf f s := by
  intro m
  induction m using Nat.strong_induction_on with
  | _ m ih =>
    intro s hm hok f d hf hd
    rcases f with _ | f
    · omega
    have hd0 : ¬(d = 0) := by omega
    by_cases hterm : terminalTest s = true
    · constructor
      · simp only [expectimaxMaxValue, expectimaxMaxInf]
        rw [if_pos (Or.inl hterm), if_pos hterm]
      · simp only [expectimaxChanceValue, expectimaxChanceInf]
        rw [if_pos (Or.inl hterm), if_pos hterm]
    · have htermf : terminalTest s = false := by
        rcases ht : terminalTest s
        · rfl
        · exact absurd ht hterm
      have hcond : ¬(terminalTest s = true ∨ d = 0) := by simp [htermf, hd0]
      have hchild : ∀ a ∈ actionsS s,
          expectimaxChanceValue f (applyAction s a) (d - 1)
            = expectimaxChanceInf f (applyAction s a) ∧
          expectimaxMaxValue f (applyAction s a) (d - 1)
            = expectimaxMaxInf f (applyAction s a) := by
        intro a ha
        have hdec := measure_decreasing hok htermf ha
        rw [hm] at hdec
        have hih := ih (measureS (applyAction s a)) hdec (applyAction s a) rfl
          (playerOK_apply hok a) f (d - 1) (by omega) (by omega)
        exact ⟨hih.2, hih.1⟩
      constructor
      · simp only [expectimaxMaxValue, expectimaxMaxInf]
        rw [if_neg hcond, if_neg hterm]
        congr 1
        exact List.map_congr_left fun a ha => (hchild a ha).1
      · simp only [expectimaxChanceValue, expectimaxChanceInf]
        rw [if_neg hcond, if_neg hterm]
        congr 1
        congr 1
        exact List.map_congr_left fun a ha => (hchild a ha).2

mutual

/-- Modelled from the words of claim C7 (spec §4.3, depth semantics): a
search in which the remaining depth decrements by exactly one per
Actor+Chance ply pair — the Actor→Chance step passes the depth through
unchanged and the Chance→Actor step consumes the unit.  This is the
claimed semantics, to be compared against the code's per-ply decrement. -/
def specPairMaxValue : ℕ → GState → ℤ → ℚ
  | 0, s, _ => utilityS s
  | fuel + 1, s, d =>
    if terminalTest s ∨ d = 0 then utilityS s
    else
      listMaxQ ((actionsS s).map
        (fun a => specPairChanceValue fuel (applyAction s a) d))

/-- The chance node of the pair-decrement model of claim C7. -/
def specPairChanceValue : ℕ → GState → ℤ → ℚ
  | 0, s, _ => utilityS s
  | fuel + 1, s, d =>
    if terminalTest s ∨ d = 0 then utilityS s
    else
      ((actionsS s).map
        (fun a => specPairMaxValue fuel (applyAction s a) (d - 1))).sum
        / ((actionsS s).length : ℚ)

end

/-- Saturated-fuel pair-decrement max-value (the fuel bound is the same
strictly decreasing game measure as for the code's search). -/
def specPairMaxValueD (s : GState) (d : ℤ) : ℚ :=
  specPairMaxValue (measureS s + 1) s d

/-- The Actor position `[_, 2]` on a 1×2 board with terminal score 16,
used to separate the code's depth accounting from the claimed one. -/
def c7State : GState :=
  ⟨boardOfList [(((0 : ℕ), (1 : ℕ)), some 2)], 1, (1, 2), 16⟩

end Solve2048

namespace Solve2048

/-- The fuel-based halving logarithm computes the mathematical floor
logarithm. -/
theorem log2Aux_eq_log (fuel n : ℕ) (h : n ≤ fuel) : log2Aux fuel n = Nat.log 2 n := by
  induction fuel generalizing n with
  | zero =>
    have hn : n = 0 := by omega
    subst hn
    simp [log2Aux]
  | succ f ih =>
    rw [log2Aux]
    by_cases h2 : 2 ≤ n
    · rw [if_pos h2, ih _ (by omega),
        Nat.log_of_one_lt_of_le (by omega) h2]
    · rw [if_neg h2, Eq.comm]
      exact Nat.log_of_lt (by omega)

theorem log2_eq_log (n : ℕ) : log2 n = Nat.log 2 n :=
  log2Aux_eq_log n n (le_refl n)

end Solve2048

namespace Solve2048

/-- Evaluation helper: `utility` on a non-terminal state is the best of the
two snake evaluations. -/
theorem utilityS_eval (tr td : List ℕ) {s : GState}
    (h1 : ¬ s.terminalScore ≤ scoreS s) (h2 : ¬ actionsS s = [])
    (h3 : powersOf s.board (boardAsSnake s.size Direction.RIGHT) = tr)
    (h4 : powersOf s.board (boardAsSnake s.size Direction.DOWN) = td) :
    utilityS s = max (utilityAux tr.length 0 tr) (utilityAux td.length 0 td) := by
  unfold utilityS
  rw [if_neg h1, if_neg h2, h3, h4]

/-- Saturated-fuel pair-decrement chance-value. -/
def specPairChanceValueD (s : GState) (d : ℤ) : ℚ :=
  specPairChanceValue (measureS s + 1) s d

theorem specPair_fuel_congr_aux :
    ∀ (m : ℕ) (s : GState), measureS s = m → playerOK s →
      ∀ (f1 f2 : ℕ) (d : ℤ), m < f1 → m < f2 →
        specPairMaxValue f1 s d = specPairMaxValue f2 s d ∧
        specPairChanceValue f1 s d = specPairChanceValue f2 s d := by
  intro m
  induction m using Nat.strong_induction_on with
  | _ m ih =>
    intro s hm hok f1 f2 d h1 h2
    rcases f1 with _ | f1
    · omega
    rcases f2 with _ | f2
    · omega
    by_cases hcond : (terminalTest s = true ∨ d = 0)
    · constructor
      · simp only [specPairMaxValue]
        rw [if_pos hcond, if_pos hcond]
      · simp only [specPairChanceValue]
        rw [if_pos hcond, if_pos hcond]
    · have hterm : terminalTest s = false := by
        rcases ht : terminalTest s
        · rfl
        · exact absurd (Or.inl ht) hcond
      have hchild : ∀ (a : Action) (d2 : ℤ), a ∈ actionsS s →
          specPairChanceValue f1 (applyAction s a) d2
            = specPairChanceValue f2 (applyAction s a) d2 ∧
          specPairMaxValue f1 (applyAction s a) d2
            = specPairMaxValue f2 (applyAction s a) d2 := by
        intro a d2 ha
        have hdec := measure_decreasing hok hterm ha
        rw [hm] at hdec
        have hih := ih (measureS (applyAction s a)) hdec (applyAction s a) rfl
          (playerOK_apply hok a) f1 f2 d2 (by omega) (by omega)
        exact ⟨hih.2, hih.1⟩
      constructor
      · simp only [specPairMaxValue]
        rw [if_neg hcond, if_neg hcond]
        congr 1
        exact List.map_congr_left fun a ha => (hchild a d ha).1
      · simp only [specPairChanceValue]
        rw [if_neg hcond, if_neg hcond]
        congr 1
        congr 1
        exact List.map_congr_left fun a ha => (hchild a (d - 1) ha).2

theorem specPair_fuel_congr {s : GState} (hok : playerOK s) {f1 f2 : ℕ} (d : ℤ)
    (h1 : measureS s < f1) (h2 : measureS s < f2) :
    specPairMaxValue f1 s d = specPairMaxValue f2 s d ∧
    specPairChanceValue f1 s d = specPairChanceValue f2 s d :=
  specPair_fuel_congr_aux (measureS s) s rfl hok f1 f2 d h1 h2

theorem specPairMaxValueD_cutoff (s : GState) (d : ℤ)
    (h : terminalTest s = true ∨ d = 0) : specPairMaxValueD s d = utilityS s := by
  unfold specPairMaxValueD
  simp only [specPairMaxValue]
  rw [if_pos h]

theorem specPairChanceValueD_cutoff (s : GState) (d : ℤ)
    (h : terminalTest s = true ∨ d = 0) : specPairChanceValueD s d = utilityS s := by
  unfold specPairChanceValueD
  simp only [specPairChanceValue]
  rw [if_pos h]

/-- In the pair model, the Actor expands the Chance children at the *same*
depth. -/
theorem specPairMaxValueD_unfold (s : GState) (d : ℤ) (hok : playerOK s)
    (hterm : terminalTest s = false) (hd : d ≠ 0) :
    specPairMaxValueD s d
      = listMaxQ ((actionsS s).map
          (fun a => specPairChanceValueD (applyAction s a) d)) := by
  unfold specPairMaxValueD
  simp only [specPairMaxValue]
  rw [if_neg (by simp [hterm, hd])]
  congr 1
  refine List.map_congr_left fun a ha => ?_
  have hdec := measure_decreasing hok hterm ha
  exact (specPair_fuel_congr (playerOK_apply hok a) d hdec (Nat.lt_succ_self _)).2

/-- In the pair model, the Chance node consumes the pair's depth unit. -/
theorem specPairChanceValueD_unfold (s : GState) (d : ℤ) (hok : playerOK s)
    (hterm : terminalTest s = false) (hd : d ≠ 0) :
    specPairChanceValueD s d
      = ((actionsS s).map
          (fun a => specPairMaxValueD (applyAction s a) (d - 1))).sum
        / ((actionsS s).length : ℚ) := by
  unfold specPairChanceValueD
  simp only [specPairChanceValue]
  rw [if_neg (by simp [hterm, hd])]
  congr 2
  refine List.map_congr_left fun a ha => ?_
  have hdec := measure_decreasing hok hterm ha
  exact (specPair_fuel_congr (playerOK_apply hok a) (d - 1) hdec (Nat.lt_succ_self _)).1

/-! ## Claim C7: depth semantics -/

/-- Counterexample to C7 as stated: on the 1×2 Actor position `[_, 2]` with
terminal score 16, the code's value at depth 1 is 8 (it stops after the
Actor ply plus the Chance expansion of depth 0 ... i.e. one decrement per
ply), while a search whose depth decrements by one per Actor+Chance ply
pair would compute 12.  So the remaining depth does not decrement by one
per ply pair. -/
theorem C7_depth_per_pair_counterexample :
    expectimaxMaxValueD c7State 1 = 8 ∧ specPairMaxValueD c7State 1 = 12 ∧
      expectimaxMaxValueD c7State 1 ≠ specPairMaxValueD c7State 1 := by
  have hcode : expectimaxMaxValueD c7State 1 = 8 := by
    rw [expectimaxMaxValueD_unfold c7State 1 (Or.inl rfl) (by decide) (by decide)]
    rw [show actionsS c7State = [Action.slide Direction.LEFT] from by decide]
    rw [List.map_cons, List.map_nil]
    rw [show (1 : ℤ) - 1 = 0 from by decide]
    rw [expectimaxChanceValueD_cutoff _ _ (Or.inr rfl)]
    show utilityS (applyAction c7State (Action.slide Direction.LEFT)) = 8
    rw [utilityS_eval [1, 0] [1, 0]
      (by decide) (by decide) (by decide) (by decide)]
    norm_num [utilityAux, max_def, abs]
  have hpair : specPairMaxValueD c7State 1 = 12 := by
    rw [specPairMaxValueD_unfold c7State 1 (Or.inl rfl) (by decide) (by decide)]
    rw [show actionsS c7State = [Action.slide Direction.LEFT] from by decide]
    rw [List.map_cons, List.map_nil]
    show listMaxQ [specPairChanceValueD (applyAction c7State (Action.slide Direction.LEFT)) 1] = 12
    have hchild : specPairChanceValueD (applyAction c7State (Action.slide Direction.LEFT)) 1
        = 12 := by
      rw [specPairChanceValueD_unfold _ 1 (Or.inr rfl) (by decide) (by decide)]
      rw [show actionsS (applyAction c7State (Action.slide Direction.LEFT))
          = [Action.insert (0, 1)] from by decide]
      rw [List.map_cons, List.map_nil]
      rw [show (1 : ℤ) - 1 = 0 from by decide]
      rw [specPairMaxValueD_cutoff _ _ (Or.inr rfl)]
      rw [utilityS_eval [1, 1] [1, 1]
        (by decide) (by decide) (by decide) (by decide)]
      norm_num [utilityAux, max_def, abs, listMaxQ]
    rw [show listMaxQ [specPairChanceValueD
        (applyAction c7State (Action.slide Direction.LEFT)) 1]
      = specPairChanceValueD (applyAction c7State (Action.slide Direction.LEFT)) 1 from rfl]
    exact hchild
  refine ⟨hcode, hpair, ?_⟩
  rw [hcode, hpair]
  norm_num

end Solve2048

namespace Solve2048

/-- C7 (amended): `depth = -1` means unlimited search — the depth-limited
search then equals the search that expands until `terminal_test()` holds —
and for depth limits the remaining depth decrements by exactly one per
*ply* (each `invoke`, both on the Actor→Chance and on the Chance→Actor
edge), not per Actor+Chance ply pair; expansion stops with `utility()`
when the remaining depth reaches zero (or the state is terminal). -/
theorem C7_depth_semantics_amended :
    (∀ (s : GState) (d : ℤ), terminalTest s = true ∨ d = 0 →
      expectimaxMaxValueD s d = utilityS s ∧
      expectimaxChanceValueD s d = utilityS s) ∧
    (∀ (s : GState) (d : ℤ), playerOK s → terminalTest s = false → d ≠ 0 →
      expectimaxMaxValueD s d
        = listMaxQ ((actionsS s).map
            (fun a => expectimaxChanceValueD (applyAction s a) (d - 1))) ∧
      expectimaxChanceValueD s d
        = ((actionsS s).map
            (fun a => expectimaxMaxValueD (applyAction s a) (d - 1))).sum
          / ((actionsS s).length : ℚ)) ∧
    (∀ (s : GState) (d : ℤ), playerOK s → d < 0 →
      expectimaxMaxValueD s d = expectimaxMaxInfD s ∧
      expectimaxChanceValueD s d = expectimaxChanceInfD s) ∧
    (∀ s : GState, terminalTest s = true →
      expectimaxMaxInfD s = utilityS s ∧ expectimaxChanceInfD s = utilityS s) ∧
    (∀ s : GState, playerOK s → terminalTest s = false →
      expectimaxMaxInfD s
        = listMaxQ ((actionsS s).map (fun a => expectimaxChanceInfD (applyAction s a))) ∧
      expectimaxChanceInfD s
        = ((actionsS s).map (fun a => expectimaxMaxInfD (applyAction s a))).sum
          / ((actionsS s).length : ℚ)) := by
  refine ⟨?_, ?_, ?_, ?_, ?_⟩
  · intro s d h
    exact ⟨expectimaxMaxValueD_cutoff s d h, expectimaxChanceValueD_cutoff s d h⟩
  · intro s d hok hterm hd
    exact ⟨expectimaxMaxValueD_unfold s d hok hterm hd,
      expectimaxChanceValueD_unfold s d hok hterm hd⟩
  · intro s d hok hd
    exact neg_depth_unlimited_aux (measureS s) s rfl hok _ d (Nat.lt_succ_self _) hd
  · intro s h
    exact ⟨expectimaxMaxInfD_cutoff s h, expectimaxChanceInfD_cutoff s h⟩
  · intro s hok hterm
    exact ⟨expectimaxMaxInfD_unfold s hok hterm, expectimaxChanceInfD_unfold s hok hterm⟩

/-- Witness for the amended C7, at the concrete Actor position `c7State`:
the per-ply expansion equation at depth 1 and the unlimited equality at
depth `-1`. -/
theorem C7_depth_semantics_amended_witness :
    (playerOK c7State ∧ terminalTest c7State = false ∧ (1 : ℤ) ≠ 0 ∧ (-1 : ℤ) < 0) ∧
    (expectimaxMaxValueD c7State 1
        = listMaxQ ((actionsS c7State).map
            (fun a => expectimaxChanceValueD (applyAction c7State a) (1 - 1))) ∧
      expectimaxMaxValueD c7State (-1) = expectimaxMaxInfD c7State) :=
  ⟨⟨Or.inl rfl, by decide, by decide, by decide⟩,
    (C7_depth_semantics_amended.2.1 c7State 1 (Or.inl rfl) (by decide) (by decide)).1,
    (C7_depth_semantics_amended.2.2.1 c7State (-1) (Or.inl rfl) (by decide)).1⟩

end Solve2048

namespace Solve2048

/-! ## The top-level tie-break (`_optimize_immediate_utility`) -/

/-- `operator.gt` on values. -/
def qGt (a b : ℚ) : Bool :=
  decide (b < a)

/-- One iteration of the tie-collection pass of
`search._optimize_immediate_utility`: a strictly better value under `cmp`
resets the tie list to just that action; a value equal to or within the
absolute tolerance `0.0001` of the *running* best joins it; anything else
is dropped. -/
def tieStep (cmp : ℚ → ℚ → Bool) (st : Option ℚ × List Action) (av : Action × ℚ) :
    Option ℚ × List Action :=
  match st.1 with
  | none => (some av.2, [av.1])
  | some best =>
    if cmp av.2 best then (some av.2, [av.1])
    else if av.2 = best ∨ |av.2 - best| ≤ 1 / 10000 then (some best, st.2 ++ [av.1])
    else (some best, st.2)

/-- The first pass of `_optimize_immediate_utility`: the running best and
the tie list. -/
def collectTies (cmp : ℚ → ℚ → Bool) (us : List (Action × ℚ)) :
    Option ℚ × List Action :=
  us.foldl (tieStep cmp) (none, [])

/-- One iteration of the immediate-utility pass: strict improvement under
`cmp` replaces the running winner, so the earliest maximum is kept. -/
def immStep (s : GState) (cmp : ℚ → ℚ → Bool) (st : Option ℚ × Option Action)
    (a : Action) : Option ℚ × Option Action :=
  match st.1 with
  | none => (some (utilityS (applyAction s a)), some a)
  | some best =>
    if cmp (utilityS (applyAction s a)) best
    then (some (utilityS (applyAction s a)), some a)
    else st

/-- `search._optimize_immediate_utility`: collect the ties, return a single
tie directly, otherwise pick by immediate one-ply utility. -/
def optimizeImmediateUtility (s : GState) (us : List (Action × ℚ))
    (cmp : ℚ → ℚ → Bool) : Option Action :=
  if (collectTies cmp us).2.length = 1 then (collectTies cmp us).2.head?
  else ((collectTies cmp us).2.foldl (immStep s cmp) (none, none)).2

/-- `search.expectimax_decision` on Actor states: evaluate every legal
action's chance value at the given depth and run the tie-break; `none`
models the `StopIteration` (the spec's *Exhausted*) when no legal action
exists.  The `player == -1` branch of the Python code draws a uniformly
random action (`random.choice`); randomness is outside the embedding and
the claims only concern Actor states, so that branch is mapped to `none`. -/
def expectimaxDecision (s : GState) (depth : ℤ) : Option Action :=
  if actionsS s = [] then none
  else if s.player = -1 then none
  else
    optimizeImmediateUtility s
      ((actionsS s).map (fun a => (a, expectimaxChanceValueD (applyAction s a) depth)))
      qGt

/-- The 2×2 Actor position with a single 2 at the bottom-left corner. -/
def c6State : GState :=
  ⟨boardOfList [(((1 : ℕ), (0 : ℕ)), some 2)], 1, (2, 2), 64⟩

end Solve2048

namespace Solve2048

/-! ## Claim C6: the tie-break -/

/-- Counterexample to C6 as stated.  On the 2×2 board with a single 2 at
the bottom-left, both legal slides `UP` and `RIGHT` carry deep values
within the absolute tolerance `0.0001` of the best value (`1` and
`1 + 1/20000`), so the claim considers them tied and requires the action
with the better immediate utility — `UP`, worth `99/2` against `6`.  The
code instead resets the tie list when it meets the strictly better second
value, drops `UP`, and returns `RIGHT`. -/
theorem C6_tie_tolerance_counterexample :
    (∀ av ∈ [(Action.slide Direction.UP, (1 : ℚ)),
        (Action.slide Direction.RIGHT, 1 + 1 / 20000)], canInvoke c6State av.1 = true) ∧
    (1 : ℚ) < 1 + 1 / 20000 ∧
    |(1 : ℚ) - (1 + 1 / 20000)| ≤ 1 / 10000 ∧
    utilityS (applyAction c6State (Action.slide Direction.RIGHT))
      < utilityS (applyAction c6State (Action.slide Direction.UP)) ∧
    optimizeImmediateUtility c6State
        [(Action.slide Direction.UP, (1 : ℚ)),
          (Action.slide Direction.RIGHT, 1 + 1 / 20000)] qGt
      = some (Action.slide Direction.RIGHT) ∧
    Action.slide Direction.RIGHT ≠ Action.slide Direction.UP := by
  have hup : utilityS (applyAction c6State (Action.slide Direction.UP)) = 99 / 2 := by
    rw [utilityS_eval [1, 0, 0, 0] [1, 0, 0, 0]
      (by decide) (by decide) (by decide) (by decide)]
    norm_num [utilityAux, max_def, abs]
  have hright : utilityS (applyAction c6State (Action.slide Direction.RIGHT)) = 6 := by
    rw [utilityS_eval [0, 0, 1, 0] [0, 0, 1, 0]
      (by decide) (by decide) (by decide) (by decide)]
    norm_num [utilityAux, max_def, abs]
  have hq : qGt (1 + 1 / 20000 : ℚ) 1 = true := by
    rw [qGt, decide_eq_true_eq]
    norm_num
  refine ⟨by decide, by norm_num, by norm_num [abs], ?_, ?_, by decide⟩
  · rw [hup, hright]
    norm_num
  · unfold optimizeImmediateUtility collectTies
    rw [List.foldl_cons, List.foldl_cons, List.foldl_nil]
    rw [show tieStep qGt (none, []) (Action.slide Direction.UP, (1 : ℚ))
        = (some 1, [Action.slide Direction.UP]) from rfl]
    rw [show tieStep qGt (some 1, [Action.slide Direction.UP])
          (Action.slide Direction.RIGHT, 1 + 1 / 20000)
        = (some (1 + 1 / 20000), [Action.slide Direction.RIGHT]) from by
      simp only [tieStep]
      rw [if_pos hq]]
    simp

/-- After the first element, the tie list never becomes empty again. -/
theorem tieFold_ne_nil (cmp : ℚ → ℚ → Bool) :
    ∀ (us : List (Action × ℚ)) (v : ℚ) (ties : List Action), ties ≠ [] →
      (us.foldl (tieStep cmp) (some v, ties)).2 ≠ [] := by
  intro us
  induction us with
  | nil => intro v ties h; exact h
  | cons av rest ih =>
    intro v ties h
    rw [List.foldl_cons]
    show (rest.foldl (tieStep cmp) (tieStep cmp (some v, ties) av)).2 ≠ []
    unfold tieStep
    simp only
    by_cases h1 : cmp av.2 v = true
    · rw [if_pos h1]
      exact ih av.2 [av.1] (by simp)
    · rw [if_neg (by simpa using h1)]
      by_cases h2 : av.2 = v ∨ |av.2 - v| ≤ 1 / 10000
      · rw [if_pos h2]
        exact ih v (ties ++ [av.1]) (by simp)
      · rw [if_neg h2]
        exact ih v ties h

/-- The tie list of a non-empty candidate list is non-empty. -/
theorem collectTies_ne_nil (cmp : ℚ → ℚ → Bool) {us : List (Action × ℚ)}
    (h : us ≠ []) : (collectTies cmp us).2 ≠ [] := by
  rcases us with _ | ⟨av, rest⟩
  · exact absurd rfl h
  · unfold collectTies
    rw [List.foldl_cons]
    exact tieFold_ne_nil cmp rest av.2 [av.1] (by simp)

end Solve2048

namespace Solve2048

/-- The immediate-utility pass returns the *first* action attaining the
maximal immediate utility: everything before the returned action is
strictly worse, everything after is no better. -/
theorem immFold_firstArgmax (s : GState) :
    ∀ (t : List Action) (r : Action),
      ∃ res, (t.foldl (immStep s qGt)
          (some (utilityS (applyAction s r)), some r)).2 = some res ∧
        ∃ l1 l2, r :: t = l1 ++ res :: l2 ∧
          (∀ a ∈ l1, utilityS (applyAction s a) < utilityS (applyAction s res)) ∧
          (∀ a ∈ l2, utilityS (applyAction s a) ≤ utilityS (applyAction s res)) := by
  intro t
  induction t with
  | nil =>
    intro r
    exact ⟨r, rfl, [], [], rfl, by simp, by simp⟩
  | cons b t ih =>
    intro r
    rw [List.foldl_cons]
    by_cases hb : utilityS (applyAction s r) < utilityS (applyAction s b)
    · have hstep : immStep s qGt (some (utilityS (applyAction s r)), some r) b
          = (some (utilityS (applyAction s b)), some b) := by
        simp only [immStep]
        rw [if_pos (by rw [qGt, decide_eq_true_eq]; exact hb)]
      rw [hstep]
      obtain ⟨res, hres, l1, l2, heq, hl1, hl2⟩ := ih b
      have hble : utilityS (applyAction s b) ≤ utilityS (applyAction s res) := by
        rcases l1 with _ | ⟨b2, l1t⟩
        · simp only [List.nil_append, List.cons.injEq] at heq
          rw [heq.1]
        · have hb2 : b2 = b := by
            have := congrArg (fun l => l.head?) heq
            simpa using this.symm
          subst hb2
          exact le_of_lt (hl1 b2 (List.mem_cons_self _ _))
      refine ⟨res, hres, r :: l1, l2, by rw [List.cons_append, heq], ?_, hl2⟩
      intro a ha
      rcases List.mem_cons.1 ha with h | h
      · rw [h]
        exact lt_of_lt_of_le hb hble
      · exact hl1 a h
    · have hstep : immStep s qGt (some (utilityS (applyAction s r)), some r) b
          = (some (utilityS (applyAction s r)), some r) := by
        simp only [immStep]
        rw [if_neg (by rw [qGt, decide_eq_true_eq]; exact hb)]
      rw [hstep]
      obtain ⟨res, hres, l1, l2, heq, hl1, hl2⟩ := ih r
      rcases l1 with _ | ⟨r2, l1t⟩
      · simp only [List.nil_append, List.cons.injEq] at heq
        refine ⟨res, hres, [], b :: l2, ?_, by simp, ?_⟩
        · rw [List.nil_append, heq.1, heq.2]
        · intro a ha
          rcases List.mem_cons.1 ha with h | h
          · rw [h, ← heq.1]
            exact le_of_not_lt hb
          · exact hl2 a h
      · have hr2 : r2 = r := by
          have := congrArg (fun l => l.head?) heq
          simpa using this.symm
        have hteq : t = l1t ++ res :: l2 := by
          have := congrArg List.tail heq
          simpa using this
        have hrlt : utilityS (applyAction s r) < utilityS (applyAction s res) := by
          rw [← hr2]
          exact hl1 r2 (List.mem_cons_self _ _)
        refine ⟨res, hres, r :: b :: l1t, l2, ?_, ?_, hl2⟩
        · rw [hteq]
          rfl
        · intro a ha
          rcases List.mem_cons.1 ha with h | h
          · rw [h]
            exact hrlt
          · rcases List.mem_cons.1 h with h2 | h2
            · rw [h2]
              exact lt_of_le_of_lt (le_of_not_lt hb) hrlt
            · exact hl1 a (List.mem_cons_of_mem _ h2)

/-- C6 (amended): the tie set is computed against the *running* best in a
single pass — a strictly better value resets the tie set to just that
action, and later values equal to or within `0.0001` of the current best
join it, so an earlier action within tolerance of the final best can be
dropped.  A singleton tie set is returned directly; among two or more
tied actions the code returns the first one attaining the maximal
immediate one-ply utility (lowest index on immediate ties). -/
theorem C6_tie_break_amended (s : GState) (us : List (Action × ℚ)) (hne : us ≠ [])
    (_hleg : ∀ av ∈ us, canInvoke s av.1 = true) :
    (collectTies qGt us).2 ≠ [] ∧
    ((collectTies qGt us).2.length = 1 →
      optimizeImmediateUtility s us qGt = (collectTies qGt us).2.head?) ∧
    (2 ≤ (collectTies qGt us).2.length →
      ∃ res l1 l2, optimizeImmediateUtility s us qGt = some res ∧
        (collectTies qGt us).2 = l1 ++ res :: l2 ∧
        (∀ a ∈ l1, utilityS (applyAction s a) < utilityS (applyAction s res)) ∧
        (∀ a ∈ l2, utilityS (applyAction s a) ≤ utilityS (applyAction s res))) := by
  refine ⟨collectTies_ne_nil qGt hne, ?_, ?_⟩
  · intro hlen
    unfold optimizeImmediateUtility
    rw [if_pos hlen]
  · intro hlen
    unfold optimizeImmediateUtility
    rw [if_neg (by omega)]
    rcases hties : (collectTies qGt us).2 with _ | ⟨r, trest⟩
    · exact absurd hties (collectTies_ne_nil qGt hne)
    · rw [List.foldl_cons]
      rw [show immStep s qGt (none, none) r
          = (some (utilityS (applyAction s r)), some r) from rfl]
      obtain ⟨res, hres, l1, l2, heq, hl1, hl2⟩ := immFold_firstArgmax s trest r
      exact ⟨res, l1, l2, hres, heq, hl1, hl2⟩

/-- Witness for the amended C6: on `c6State` with equal deep values the tie
set is `[UP, RIGHT]` and the immediate-utility pass picks `UP`. -/
theorem C6_tie_break_amended_witness :
    (([(Action.slide Direction.UP, (1 : ℚ)), (Action.slide Direction.RIGHT, 1)]
        : List (Action × ℚ)) ≠ [] ∧
      (∀ av ∈ [(Action.slide Direction.UP, (1 : ℚ)), (Action.slide Direction.RIGHT, 1)],
        canInvoke c6State av.1 = true)) ∧
    ((collectTies qGt
        [(Action.slide Direction.UP, (1 : ℚ)), (Action.slide Direction.RIGHT, 1)]).2 ≠ [] ∧
      ((collectTies qGt
        [(Action.slide Direction.UP, (1 : ℚ)), (Action.slide Direction.RIGHT, 1)]).2.length = 1 →
        optimizeImmediateUtility c6State
          [(Action.slide Direction.UP, (1 : ℚ)), (Action.slide Direction.RIGHT, 1)] qGt
          = (collectTies qGt
              [(Action.slide Direction.UP, (1 : ℚ)),
                (Action.slide Direction.RIGHT, 1)]).2.head?) ∧
      (2 ≤ (collectTies qGt
          [(Action.slide Direction.UP, (1 : ℚ)), (Action.slide Direction.RIGHT, 1)]).2.length →
        ∃ res l1 l2, optimizeImmediateUtility c6State
            [(Action.slide Direction.UP, (1 : ℚ)), (Action.slide Direction.RIGHT, 1)] qGt
            = some res ∧
          (collectTies qGt
            [(Action.slide Direction.UP, (1 : ℚ)),
              (Action.slide Direction.RIGHT, 1)]).2 = l1 ++ res :: l2 ∧
          (∀ a ∈ l1, utilityS (applyAction c6State a)
            < utilityS (applyAction c6State res)) ∧
          (∀ a ∈ l2, utilityS (applyAction c6State a)
            ≤ utilityS (applyAction c6State res)))) :=
  ⟨⟨by decide, by decide⟩,
    C6_tie_break_amended c6State
      [(Action.slide Direction.UP, (1 : ℚ)), (Action.slide Direction.RIGHT, 1)]
      (by decide) (by decide)⟩

end Solve2048

namespace Solve2048

/-! ## Claim C2: no iterative-deepening escape -/

/-- The 2×2 Actor position `[[_, 2], [2, 2]]` with terminal score 512. -/
def c2State : GState :=
  ⟨boardOfList [(((0 : ℕ), (1 : ℕ)), some 2), (((1 : ℕ), (0 : ℕ)), some 2),
    (((1 : ℕ), (1 : ℕ)), some 2)], 1, (2, 2), 512⟩

/-- Counterexample to C2 as stated.  At `c2State` with depth 0 the tie-break
leaves two tied actions (`RIGHT` and `DOWN`) of equal immediate utility,
and the best value 35 lies strictly between the utility bounds — exactly
the situation in which the claim says the decision procedure recurses into
itself with `depth + 1`.  But the code has no such recursion: it returns
the first tied action `RIGHT` at depth 0, while the search at depth 1
returns `UP`.  Had the procedure recursed as claimed, the two would
coincide. -/
theorem C2_iterative_deepening_counterexample :
    (collectTies qGt ((actionsS c2State).map
        (fun a => (a, expectimaxChanceValueD (applyAction c2State a) 0)))).2
      = [Action.slide Direction.RIGHT, Action.slide Direction.DOWN] ∧
    (collectTies qGt ((actionsS c2State).map
        (fun a => (a, expectimaxChanceValueD (applyAction c2State a) 0)))).1 = some 35 ∧
    utilityS (applyAction c2State (Action.slide Direction.RIGHT))
      = utilityS (applyAction c2State (Action.slide Direction.DOWN)) ∧
    minUtility c2State < 35 ∧ (35 : ℚ) < maxUtility c2State ∧
    expectimaxDecision c2State 0 = some (Action.slide Direction.RIGHT) ∧
    expectimaxDecision c2State 1 = some (Action.slide Direction.UP) ∧
    Action.slide Direction.RIGHT ≠ Action.slide Direction.UP := by
  have hU : utilityS (applyAction c2State (Action.slide Direction.UP)) = 49 / 2 := by
    rw [utilityS_eval [1, 2, 0, 0] [1, 0, 0, 2]
      (by decide) (by decide) (by decide) (by decide)]
    norm_num [utilityAux, max_def, abs]
  have hR : utilityS (applyAction c2State (Action.slide Direction.RIGHT)) = 35 := by
    rw [utilityS_eval [0, 1, 2, 0] [0, 0, 2, 1]
      (by decide) (by decide) (by decide) (by decide)]
    norm_num [utilityAux, max_def, abs]
  have hD : utilityS (applyAction c2State (Action.slide Direction.DOWN)) = 35 := by
    rw [utilityS_eval [0, 0, 2, 1] [0, 1, 2, 0]
      (by decide) (by decide) (by decide) (by decide)]
    norm_num [utilityAux, max_def, abs]
  have hL : utilityS (applyAction c2State (Action.slide Direction.LEFT)) = 49 / 2 := by
    rw [utilityS_eval [1, 0, 0, 2] [1, 2, 0, 0]
      (by decide) (by decide) (by decide) (by decide)]
    norm_num [utilityAux, max_def, abs]
  have hacts : actionsS c2State = [Action.slide Direction.UP, Action.slide Direction.RIGHT,
      Action.slide Direction.DOWN, Action.slide Direction.LEFT] := by decide
  have hmaxU : maxUtility c2State = 10 ^ 19 := by
    unfold maxUtility
    rw [show log2 c2State.terminalScore + 10 = 19 from by decide]
  have hCU : expectimaxChanceValueD (applyAction c2State (Action.slide Direction.UP)) 1
      = 27 := by
    have g1 : utilityS (applyAction (applyAction c2State (Action.slide Direction.UP))
        (Action.insert (1, 0))) = 62 := by
      rw [utilityS_eval [1, 2, 0, 1] [1, 1, 0, 2]
        (by decide) (by decide) (by decide) (by decide)]
      norm_num [utilityAux, max_def, abs]
    have g2 : utilityS (applyAction (applyAction c2State (Action.slide Direction.UP))
        (Action.insert (1, 1))) = -8 := by
      rw [utilityS_eval [1, 2, 1, 0] [1, 0, 1, 2]
        (by decide) (by decide) (by decide) (by decide)]
      norm_num [utilityAux, max_def, abs]
    rw [expectimaxChanceValueD_unfold _ 1 (Or.inr rfl) (by decide) (by decide)]
    rw [show actionsS (applyAction c2State (Action.slide Direction.UP))
        = [Action.insert (1, 0), Action.insert (1, 1)] from by decide]
    rw [List.map_cons, List.map_cons, List.map_nil]
    rw [show (1 : ℤ) - 1 = 0 from by decide]
    rw [expectimaxMaxValueD_cutoff _ _ (Or.inr rfl),
      expectimaxMaxValueD_cutoff _ _ (Or.inr rfl), g1, g2]
    norm_num
  have hCR : expectimaxChanceValueD (applyAction c2State (Action.slide Direction.RIGHT)) 1
      = -3 / 2 := by
    have g1 : utilityS (applyAction (applyAction c2State (Action.slide Direction.RIGHT))
        (Action.insert (0, 0))) = 53 := by
      rw [utilityS_eval [1, 1, 2, 0] [1, 0, 2, 1]
        (by decide) (by decide) (by decide) (by decide)]
      norm_num [utilityAux, max_def, abs]
    have g2 : utilityS (applyAction (applyAction c2State (Action.slide Direction.RIGHT))
        (Action.insert (1, 0))) = -56 := by
      rw [utilityS_eval [0, 1, 2, 1] [0, 1, 2, 1]
        (by decide) (by decide) (by decide) (by decide)]
      norm_num [utilityAux, max_def, abs]
    rw [expectimaxChanceValueD_unfold _ 1 (Or.inr rfl) (by decide) (by decide)]
    rw [show actionsS (applyAction c2State (Action.slide Direction.RIGHT))
        = [Action.insert (0, 0), Action.insert (1, 0)] from by decide]
    rw [List.map_cons, List.map_cons, List.map_nil]
    rw [show (1 : ℤ) - 1 = 0 from by decide]
    rw [expectimaxMaxValueD_cutoff _ _ (Or.inr rfl),
      expectimaxMaxValueD_cutoff _ _ (Or.inr rfl), g1, g2]
    norm_num
  have hCD : expectimaxChanceValueD (applyAction c2State (Action.slide Direction.DOWN)) 1
      = -3 / 2 := by
    have g1 : utilityS (applyAction (applyAction c2State (Action.slide Direction.DOWN))
        (Action.insert (0, 0))) = 53 := by
      rw [utilityS_eval [1, 0, 2, 1] [1, 1, 2, 0]
        (by decide) (by decide) (by decide) (by decide)]
      norm_num [utilityAux, max_def, abs]
    have g2 : utilityS (applyAction (applyAction c2State (Action.slide Direction.DOWN))
        (Action.insert (0, 1))) = -56 := by
      rw [utilityS_eval [0, 1, 2, 1] [0, 1, 2, 1]
        (by decide) (by decide) (by decide) (by decide)]
      norm_num [utilityAux, max_def, abs]
    rw [expectimaxChanceValueD_unfold _ 1 (Or.inr rfl) (by decide) (by decide)]
    rw [show actionsS (applyAction c2State (Action.slide Direction.DOWN))
        = [Action.insert (0, 0), Action.insert (0, 1)] from by decide]
    rw [List.map_cons, List.map_cons, List.map_nil]
    rw [show (1 : ℤ) - 1 = 0 from by decide]
    rw [expectimaxMaxValueD_cutoff _ _ (Or.inr rfl),
      expectimaxMaxValueD_cutoff _ _ (Or.inr rfl), g1, g2]
    norm_num
  have hCL : expectimaxChanceValueD (applyAction c2State (Action.slide Direction.LEFT)) 1
      = 27 := by
    have g1 : utilityS (applyAction (applyAction c2State (Action.slide Direction.LEFT))
        (Action.insert (0, 1))) = 62 := by
      rw [utilityS_eval [1, 1, 0, 2] [1, 2, 0, 1]
        (by decide) (by decide) (by decide) (by decide)]
      norm_num [utilityAux, max_def, abs]
    have g2 : utilityS (applyAction (applyAction c2State (Action.slide Direction.LEFT))
        (Action.insert (1, 1))) = -8 := by
      rw [utilityS_eval [1, 0, 1, 2] [1, 2, 1, 0]
        (by decide) (by decide) (by decide) (by decide)]
      norm_num [utilityAux, max_def, abs]
    rw [expectimaxChanceValueD_unfold _ 1 (Or.inr rfl) (by decide) (by decide)]
    rw [show actionsS (applyAction c2State (Action.slide Direction.LEFT))
        = [Action.insert (0, 1), Action.insert (1, 1)] from by decide]
    rw [List.map_cons, List.map_cons, List.map_nil]
    rw [show (1 : ℤ) - 1 = 0 from by decide]
    rw [expectimaxMaxValueD_cutoff _ _ (Or.inr rfl),
      expectimaxMaxValueD_cutoff _ _ (Or.inr rfl), g1, g2]
    norm_num
  refine ⟨?_, ?_, by rw [hR, hD], ?_, ?_, ?_, ?_, by decide⟩
  · rw [hacts]
    rw [List.map_cons, List.map_cons, List.map_cons, List.map_cons, List.map_nil]
    rw [expectimaxChanceValueD_cutoff _ _ (Or.inr rfl),
      expectimaxChanceValueD_cutoff _ _ (Or.inr rfl),
      expectimaxChanceValueD_cutoff _ _ (Or.inr rfl),
      expectimaxChanceValueD_cutoff _ _ (Or.inr rfl), hU, hR, hD, hL]
    norm_num [collectTies, tieStep, qGt, abs]
  · rw [hacts]
    rw [List.map_cons, List.map_cons, List.map_cons, List.map_cons, List.map_nil]
    rw [expectimaxChanceValueD_cutoff _ _ (Or.inr rfl),
      expectimaxChanceValueD_cutoff _ _ (Or.inr rfl),
      expectimaxChanceValueD_cutoff _ _ (Or.inr rfl),
      expectimaxChanceValueD_cutoff _ _ (Or.inr rfl), hU, hR, hD, hL]
    norm_num [collectTies, tieStep, qGt, abs]
  · unfold minUtility
    rw [hmaxU]
    norm_num
  · rw [hmaxU]
    norm_num
  · unfold expectimaxDecision
    rw [if_neg (by decide), if_neg (by decide), hacts]
    rw [List.map_cons, List.map_cons, List.map_cons, List.map_cons, List.map_nil]
    rw [expectimaxChanceValueD_cutoff _ _ (Or.inr rfl),
      expectimaxChanceValueD_cutoff _ _ (Or.inr rfl),
      expectimaxChanceValueD_cutoff _ _ (Or.inr rfl),
      expectimaxChanceValueD_cutoff _ _ (Or.inr rfl), hU, hR, hD, hL]
    norm_num [optimizeImmediateUtility, collectTies, tieStep, immStep, qGt, hU, hR, hD, hL, abs]
  · unfold expectimaxDecision
    rw [if_neg (by decide), if_neg (by decide), hacts]
    rw [List.map_cons, List.map_cons, List.map_cons, List.map_cons, List.map_nil]
    rw [hCU, hCR, hCD, hCL]
    norm_num [optimizeImmediateUtility, collectTies, tieStep, immStep, qGt, hU, hR, hD, hL, abs]

end Solve2048

namespace Solve2048

/-- Every action in the collected tie list comes from the candidate list. -/
theorem tieFold_subset (cmp : ℚ → ℚ → Bool) (P : Action → Prop) :
    ∀ (us : List (Action × ℚ)) (st : Option ℚ × List Action),
      (∀ x ∈ st.2, P x) → (∀ av ∈ us, P av.1) →
      ∀ x ∈ (us.foldl (tieStep cmp) st).2, P x := by
  intro us
  induction us with
  | nil => intro st hst _ x hx; exact hst x hx
  | cons av rest ih =>
    intro st hst hus x hx
    rw [List.foldl_cons] at hx
    refine ih (tieStep cmp st av) ?_ (fun bv hbv => hus bv (List.mem_cons_of_mem _ hbv)) x hx
    intro y hy
    unfold tieStep at hy
    rcases hst1 : st.1 with _ | best
    · rw [hst1] at hy
      simp only [List.mem_singleton] at hy
      rw [hy]
      exact hus av (List.mem_cons_self _ _)
    · rw [hst1] at hy
      simp only at hy
      by_cases h1 : cmp av.2 best = true
      · rw [if_pos h1] at hy
        simp only [List.mem_singleton] at hy
        rw [hy]
        exact hus av (List.mem_cons_self _ _)
      · rw [if_neg (by simpa using h1)] at hy
        by_cases h2 : av.2 = best ∨ |av.2 - best| ≤ 1 / 10000
        · rw [if_pos h2] at hy
          rcases List.mem_append.1 hy with hm | hm
          · exact hst y hm
          · rw [List.mem_singleton.1 hm]
            exact hus av (List.mem_cons_self _ _)
        · rw [if_neg h2] at hy
          exact hst y hy

/-- C2 (amended): there is no iterative-deepening escape.  On every Actor
state with at least one legal action, `expectimax_decision` returns the
tie-break result at the *given* depth — always one of the legal actions —
and never recurses into itself with `depth + 1`, even when the tie-break
leaves several actions of equal immediate utility. -/
theorem C2_no_iterative_deepening (s : GState) (d : ℤ) (hp : ¬ s.player = -1)
    (hne : ¬ actionsS s = []) :
    expectimaxDecision s d
      = optimizeImmediateUtility s
          ((actionsS s).map (fun a => (a, expectimaxChanceValueD (applyAction s a) d)))
          qGt ∧
    ∃ a, expectimaxDecision s d = some a ∧ a ∈ actionsS s := by
  have hdec : expectimaxDecision s d
      = optimizeImmediateUtility s
          ((actionsS s).map (fun a => (a, expectimaxChanceValueD (applyAction s a) d)))
          qGt := by
    unfold expectimaxDecision
    rw [if_neg hne, if_neg hp]
  refine ⟨hdec, ?_⟩
  have husne : ((actionsS s).map
      (fun a => (a, expectimaxChanceValueD (applyAction s a) d))) ≠ [] := by
    intro hc
    exact hne (List.map_eq_nil_iff.1 hc)
  have hsubset : ∀ x ∈ (collectTies qGt ((actionsS s).map
      (fun a => (a, expectimaxChanceValueD (applyAction s a) d)))).2, x ∈ actionsS s := by
    refine tieFold_subset qGt (· ∈ actionsS s) _ (none, []) (by simp) ?_
    intro av hav
    obtain ⟨a, ha, he⟩ := List.mem_map.1 hav
    rw [← he]
    exact ha
  rw [hdec]
  rcases hties : (collectTies qGt ((actionsS s).map
      (fun a => (a, expectimaxChanceValueD (applyAction s a) d)))).2 with _ | ⟨r, trest⟩
  · exact absurd hties (collectTies_ne_nil qGt husne)
  · unfold optimizeImmediateUtility
    rw [hties]
    rcases trest with _ | ⟨r2, trest2⟩
    · rw [if_pos (show ([r] : List Action).length = 1 by rfl)]
      exact ⟨r, rfl, hsubset r (hties ▸ List.mem_cons_self _ _)⟩
    · rw [if_neg (by simp)]
      rw [List.foldl_cons]
      rw [show immStep s qGt (none, none) r
          = (some (utilityS (applyAction s r)), some r) from rfl]
      obtain ⟨res, hres, l1, l2, heq, _, _⟩ := immFold_firstArgmax s (r2 :: trest2) r
      refine ⟨res, hres, hsubset res ?_⟩
      rw [hties, heq]
      exact List.mem_append.2 (Or.inr (List.mem_cons_self _ _))

/-- Witness for the amended C2 at `c2State`, depth 0: the decision is the
tie-break result and is one of the legal actions, with no recursion. -/
theorem C2_no_iterative_deepening_witness :
    (¬ c2State.player = -1 ∧ ¬ actionsS c2State = []) ∧
    (expectimaxDecision c2State 0
        = optimizeImmediateUtility c2State
            ((actionsS c2State).map
              (fun a => (a, expectimaxChanceValueD (applyAction c2State a) 0)))
            qGt ∧
      ∃ a, expectimaxDecision c2State 0 = some a ∧ a ∈ actionsS c2State) :=
  ⟨⟨by decide, by decide⟩,
    C2_no_iterative_deepening c2State 0 (by decide) (by decide)⟩

end Solve2048

namespace Solve2048

/-! ## Claim C9: the memoization cache is transparent -/

/-- Association-list lookup in the cache (`cachetools` stores a dict keyed
by the canonicalized argument key). -/
def cacheLookup {κ V : Type} [DecidableEq κ] : List (κ × V) → κ → Option V
  | [], _ => none
  | (k, v) :: rest, key => if key = k then some v else cacheLookup rest key

/-- `cache.cached` lookup-or-compute (`cachetools.cached` around the
wrapped function): on a hit return the stored value unchanged, on a miss
compute `f`, store the result under `key x` and return it.  `key` models
`_cachekey`, which canonicalizes the argument tuple so structurally equal
arguments share a key. -/
def cachedCall {α κ V : Type} [DecidableEq κ] (key : α → κ) (f : α → V)
    (c : List (κ × V)) (x : α) : V × List (κ × V) :=
  match cacheLookup c (key x) with
  | some v => (v, c)
  | none => (f x, (key x, f x) :: c)

/-- Cache contents reachable from the empty cache by any interleaving of
cached calls and evictions of arbitrary entries (`RRCache` evicts a
uniformly random entry when full; here eviction is adversarial, which
subsumes it). -/
inductive CacheReach {α κ V : Type} [DecidableEq κ] (key : α → κ) (f : α → V) :
    List (κ × V) → Prop
  | empty : CacheReach key f []
  | call (c : List (κ × V)) (x : α) (h : CacheReach key f c) :
      CacheReach key f (cachedCall key f c x).2
  | evict (c1 c2 : List (κ × V)) (e : κ × V) (h : CacheReach key f (c1 ++ e :: c2)) :
      CacheReach key f (c1 ++ c2)

theorem cacheLookup_mem {κ V : Type} [DecidableEq κ] :
    ∀ {c : List (κ × V)} {k : κ} {v : V}, cacheLookup c k = some v → (k, v) ∈ c := by
  intro c
  induction c with
  | nil => intro k v h; cases h
  | cons kv rest ih =>
    intro k v h
    obtain ⟨k2, v2⟩ := kv
    unfold cacheLookup at h
    by_cases he : k = k2
    · rw [if_pos he] at h
      cases h
      rw [he]
      exact List.mem_cons_self _ _
    · rw [if_neg he] at h
      exact List.mem_cons_of_mem _ (ih h)

/-- Every entry of a reachable cache stores the value of the wrapped
function at some argument with that key. -/
theorem cacheReach_invariant {α κ V : Type} [DecidableEq κ] {key : α → κ} {f : α → V}
    {c : List (κ × V)} (hr : CacheReach key f c) :
    ∀ kv ∈ c, ∃ x, key x = kv.1 ∧ f x = kv.2 := by
  induction hr with
  | empty => intro kv h; cases h
  | call c x hc ih =>
    intro kv hkv
    unfold cachedCall at hkv
    rcases hlook : cacheLookup c (key x) with _ | v
    · rw [hlook] at hkv
      simp only at hkv
      rcases List.mem_cons.1 hkv with he | hm
      · exact ⟨x, by rw [he], by rw [he]⟩
      · exact ih kv hm
    · rw [hlook] at hkv
      exact ih kv hkv
  | evict c1 c2 e hc ih =>
    intro kv hkv
    refine ih kv ?_
    rcases List.mem_append.1 hkv with hm | hm
    · exact List.mem_append.2 (Or.inl hm)
    · exact List.mem_append.2 (Or.inr (List.mem_cons_of_mem _ hm))

/-- C9: for a pure wrapped function whose result depends only on the
canonicalized key of its arguments, the value returned through the cache —
hit or miss, after any sequence of calls and evictions — equals the value
the unwrapped function returns; caching never changes a returned value. -/
theorem C9_cache_transparent {α κ V : Type} [DecidableEq κ] (key : α → κ) (f : α → V)
    (hKey : ∀ x y, key x = key y → f x = f y)
    (c : List (κ × V)) (hc : CacheReach key f c) (x : α) :
    (cachedCall key f c x).1 = f x := by
  unfold cachedCall
  rcases hlook : cacheLookup c (key x) with _ | v
  · rfl
  · simp only
    obtain ⟨y, hky, hfy⟩ := cacheReach_invariant hc _ (cacheLookup_mem hlook)
    simp only at hky hfy
    rw [← hfy]
    exact hKey y x hky

/-- Witness for C9: the successor function keyed by the identity, called
through a cache already holding its value at 3 (a hit). -/
theorem C9_cache_transparent_witness :
    ((∀ x y : ℕ, (fun n : ℕ => n) x = (fun n : ℕ => n) y → x + 1 = y + 1) ∧
      CacheReach (fun n : ℕ => n) (fun n : ℕ => n + 1) [(3, 4)]) ∧
    (cachedCall (fun n : ℕ => n) (fun n : ℕ => n + 1) [(3, 4)] 3).1 = 3 + 1 := by
  have hKey : ∀ x y : ℕ, (fun n : ℕ => n) x = (fun n : ℕ => n) y → x + 1 = y + 1 :=
    fun x y h => by rw [show x = y from h]
  have hreach : CacheReach (fun n : ℕ => n) (fun n : ℕ => n + 1) [(3, 4)] :=
    CacheReach.call [] 3 CacheReach.empty
  exact ⟨⟨hKey, hreach⟩,
    C9_cache_transparent (fun n : ℕ => n) (fun n : ℕ => n + 1) hKey [(3, 4)] hreach 3⟩

end Solve2048
